import Mathlib

/-!
igcinfo: the in-memory track registry, its router and its duration formatter.

A shallow embedding of `main.go`.  The three package-level variables become the
record `Globals`; a handler `func(w, r)` becomes a function from the globals and
the request to the new globals and what was written to `w`.

Go maps are association lists.  The order in which a `range` statement visits a
map is not fixed by the language, so every request carries the sequence in which
its `range` yields the entries, and theorems quantify over every permutation of
the stored entries.
-/

namespace Igcinfo

/-! ## Collaborators from outside the repository -/

/-- Library operations that `main.go` calls and whose code is outside the repository:
the point type of package `igc`, `float64` with its zero and addition,
`igc.Point.Distance`, `strconv.FormatFloat(x, 'f', 2, 64)` and what `fmt.Fprintf`
writes for a format string when it is given no operands. -/
structure Lib where
  Point : Type
  Float64 : Type
  zero : Float64
  add : Float64 → Float64 → Float64
  Distance : Point → Point → Float64
  FormatFloat : Float64 → String
  Fprintf : String → String

/-- The fields of `igc.Track` that `main.go` reads.  `Date` holds the text that
`track.Date.String()` renders. -/
structure Track (L : Lib) where
  Date : String
  Pilot : String
  GliderType : String
  GliderID : String
  Points : List L.Point

/-- The zero value of `igc.Track`; Go renders the zero `time.Time` as below. -/
def Track.zero (L : Lib) : Track L :=
  { Date := "0001-01-01 00:00:00 +0000 UTC", Pilot := "", GliderType := "", GliderID := "",
    Points := [] }

/-- `type URLTrack struct { trackName string; track igc.Track }` -/
structure URLTrack (L : Lib) where
  trackName : String
  track : Track L

/-- The zero value of `URLTrack`, which indexing a map yields for an absent key. -/
def URLTrack.zero (L : Lib) : URLTrack L :=
  { trackName := "", track := Track.zero L }

/-- The package-level variables of `main.go`.  `igcFileCount` is a Go `int`; it is
incremented only together with an insertion into `igcFiles`, whose length is itself
an `int`, so the increment is modelled without wrap-around. -/
structure Globals (L : Lib) where
  igcFileCount : Int
  igcFiles : List (String × URLTrack L)
  timeStarted : Int

/-- The globals as initialised when the process starts at Unix time `t0`. -/
def Globals.init (L : Lib) (t0 : Int) : Globals L :=
  { igcFileCount := 1, igcFiles := [], timeStarted := t0 }

/-! ## Go map operations on association lists -/

/-- Map indexing `m[k]` with the zero value `z` for an absent key. -/
def mapGet {β : Type} (z : β) (m : List (String × β)) (k : String) : β :=
  (m.lookup k).getD z

/-- Map assignment `m[k] = v`: the value of an existing key is replaced, a new key
is added. -/
def mapSet {β : Type} : List (String × β) → String → β → List (String × β)
  | [], k, v => [(k, v)]
  | (k0, v0) :: rest, k, v =>
    if k0 = k then (k, v) :: rest else (k0, v0) :: mapSet rest k v

/-! ## strconv and fmt -/

/-- `strconv.Itoa`, also what the verb `%d` prints for an `int`. -/
def Itoa : Int → String
  | Int.ofNat m => Nat.repr m
  | Int.negSucc m => "-" ++ Nat.repr (m + 1)

/-! ## Registry scans -/

/-- `urlInMap`, over the sequence in which `range igcFiles` yields the entries. -/
def urlInMap {L : Lib} : List (String × URLTrack L) → String → Bool
  | [], _ => false
  | (urlInMap_, _) :: rest, url => if urlInMap_ = url then true else urlInMap rest url

/-- `getTrackIndex`, over the sequence in which `range igcFiles` yields the entries. -/
def getTrackIndex {L : Lib} : List (String × URLTrack L) → String → String
  | [], _ => ""
  | (url, track) :: rest, trackName =>
    if track.trackName = trackName then url else getTrackIndex rest trackName

/-! ## Duration formatter -/

/-- `parseTimeDifference`.  Go integer division truncates toward zero. -/
def parseTimeDifference (timeDifference : Int) : String :=
  let result := "P"
  let timeLeft := timeDifference
  let years := timeDifference.tdiv 31557600
  let timeLeft := timeLeft - years * 31557600
  let months := timeLeft.tdiv 2629800
  let timeLeft := timeLeft - months * 2629800
  let weeks := timeLeft.tdiv 604800
  let timeLeft := timeLeft - weeks * 604800
  let days := timeLeft.tdiv 86400
  let timeLeft := timeLeft - days * 86400
  let hours := timeLeft.tdiv 3600
  let timeLeft := timeLeft - hours * 3600
  let minutes := timeLeft.tdiv 60
  let timeLeft := timeLeft - minutes * 60
  let seconds := timeLeft
  let result := if years ≠ 0 then result ++ (Itoa years ++ "Y") else result
  let result := if months ≠ 0 then result ++ (Itoa months ++ "M") else result
  let result := if weeks ≠ 0 then result ++ (Itoa weeks ++ "W") else result
  let result := if days ≠ 0 then result ++ (Itoa days ++ "D") else result
  let result :=
    if hours ≠ 0 ∨ minutes ≠ 0 ∨ seconds ≠ 0 then
      let result := result ++ "T"
      let result := if hours ≠ 0 then result ++ (Itoa hours ++ "H") else result
      let result := if minutes ≠ 0 then result ++ (Itoa minutes ++ "M") else result
      let result := if seconds ≠ 0 then result ++ (Itoa seconds ++ "S") else result
      result
    else result
  result

/-! ## Responses -/

/-- What a handler leaves behind on its `http.ResponseWriter`: either it panicked
before writing anything, or a status, the `Content-Type` header it set (if it set
one) and the body.  A handler that never calls `WriteHeader` answers 200. -/
inductive Outcome where
  | panicked : Outcome
  | response (status : Nat) (contentType : Option String) (body : String) : Outcome
  deriving DecidableEq

/-- Go slice indexing `xs[i]`; `none` stands for the run-time panic on an index out
of range. -/
def index {α : Type} (xs : List α) (i : Int) : Option α :=
  if i < 0 then none else xs[i.toNat]?

/-- `strings.Split(s, "/")` -/
def Split (s : String) : List String :=
  (s.toList.splitOn '/').map String.mk

/-- `path.Base`: `"."` for the empty path; otherwise trailing slashes are removed,
then everything up to the last slash; `"/"` if nothing is left. -/
def Base (path : String) : String :=
  if path = "" then "."
  else
    let p := path.toList.rdropWhile (fun c => c == '/')
    let p := p.rtakeWhile (fun c => c != '/')
    if p = [] then "/" else String.mk p

/-! ## Regular expressions of the router -/

/-- The fragment of Go regular-expression syntax that the patterns of `urlRouter`
use: `^`, `$`, literal text, a character class given by its ranges, concatenation,
alternation and bounded repetition `r{lo,hi}`. -/
inductive Re where
  | bol : Re
  | eol : Re
  | lit (w : String) : Re
  | cls (ranges : List (Char × Char)) : Re
  | seq (a b : Re) : Re
  | alt (a b : Re) : Re
  | rep (r : Re) (lo hi : Nat) : Re
  deriving DecidableEq

/-- Whether `c` lies in one of the ranges of a character class. -/
def inClass (ranges : List (Char × Char)) (c : Char) : Bool :=
  ranges.any (fun r => decide (r.1 ≤ c) && decide (c ≤ r.2))

/-- All results of running `f` exactly `k` times in a row from the texts `ss`. -/
def iterRems (f : List Char → List (List Char)) : Nat → List (List Char) → List (List Char)
  | 0, ss => ss
  | k + 1, ss => iterRems f k (ss.flatMap f)

/-- All results of running `f` between `lo` and `hi` times in a row from `s`. -/
def repRems (f : List Char → List (List Char)) (lo hi : Nat) (s : List Char) :
    List (List Char) :=
  (List.range (hi + 1 - lo)).flatMap (fun j => iterRems f (lo + j) [s])

/-- Every way for the expression to match at the front of `s`, given as the text
left over after the match; `total` is the length of the whole subject text, so
that `^` can tell whether `s` starts at its beginning. -/
def Re.rems (total : Nat) : Re → List Char → List (List Char)
  | Re.bol, s => if s.length = total then [s] else []
  | Re.eol, s => if s = [] then [s] else []
  | Re.lit w, s => if w.toList.isPrefixOf s then [s.drop w.toList.length] else []
  | Re.cls ranges, s =>
    match s with
    | [] => []
    | c :: t => if inClass ranges c then [t] else []
  | Re.seq a b, s => (Re.rems total a s).flatMap (fun t => Re.rems total b t)
  | Re.alt a b, s => Re.rems total a s ++ Re.rems total b s
  | Re.rep r lo hi, s => repRems (fun t => Re.rems total r t) lo hi s

/-- `regexp.MatchString`: whether the expression matches somewhere in the text.
The patterns are given already parsed, so the error result of Go, which reports a
pattern that does not compile, cannot arise. -/
def MatchString (pattern : Re) (s : String) : Bool :=
  s.toList.tails.any (fun t => !(Re.rems s.toList.length pattern t).isEmpty)

/-! ## Requests and handlers -/

/-- One request together with what the world answers while it is served: the
method, `r.URL.Path`, the result of decoding the JSON body into a
`map[string]string` (`none` when decoding fails), the answer of
`igc.ParseLocation` for each location (`none` for an error), the Unix time, and
the sequences in which `range` yields the entries of `igcFiles` and of the
pattern map of `urlRouter`. -/
structure Request (L : Lib) where
  Method : String
  Path : String
  Body : Option (List (String × String))
  ParseLocation : String → Option (Track L)
  Now : Int
  rangeIgcFiles : List (String × URLTrack L)
  rangeUrlMap : List Re

/-- The type of a handler `func(http.ResponseWriter, *http.Request)`. -/
abbrev HandlerFunc (L : Lib) : Type := Globals L → Request L → Globals L × Outcome

/-- `calculateTotalDistance`: the counted loop runs `i` over `0, 1, ...` below
`len(track.Points)-1`; `none` stands for the panic of an index out of range. -/
def calculateTotalDistance {L : Lib} (track : Track L) : Option String :=
  let totDistance : Option L.Float64 :=
    (List.range ((track.Points.length : Int) - 1).toNat).foldl
      (fun (acc : Option L.Float64) (i : Nat) =>
        match acc, index track.Points (i : Int), index track.Points ((i : Int) + 1) with
        | some tot, some a, some b => some (L.add tot (L.Distance a b))
        | _, _, _ => none)
      (some L.zero)
  totDistance.map L.FormatFloat

/-- `apiHandler` -/
def apiHandler (L : Lib) : HandlerFunc L := fun g r =>
  let timeNow := r.Now
  let duration := parseTimeDifference (timeNow - g.timeStarted)
  let response := "\x7b"
  let response := response ++ ("\"uptime\": \"" ++ duration ++ "\",")
  let response := response ++ "\"info\": \"Service for IGC tracks.\","
  let response := response ++ "\"version\": \"v1\""
  let response := response ++ "\x7d"
  (g, Outcome.response 200 (some "application/json") (response ++ "\n"))

/-- The body of the `range` loop in the GET branch of `igcHandler`, over the
sequence in which the entries are yielded; `y` is the numeric iterator. -/
def listLoop {L : Lib} (igcFiles : List (String × URLTrack L)) :
    List (String × URLTrack L) → Int → String → String
  | [], _, response => response
  | (j, _) :: rest, y, response =>
    if y ≠ (igcFiles.length : Int) - 1 then
      listLoop igcFiles rest (y + 1)
        (response ++ ("\"" ++ (mapGet (URLTrack.zero L) igcFiles j).trackName ++ "\","))
    else
      listLoop igcFiles rest y
        (response ++ ("\"" ++ (mapGet (URLTrack.zero L) igcFiles j).trackName ++ "\""))

/-- `igcHandler`.  A request whose method is neither POST nor GET writes nothing. -/
def igcHandler (L : Lib) : HandlerFunc L := fun g r =>
  if r.Method = "POST" then
    match r.Body with
    | none => (g, Outcome.panicked)
    | some data =>
      match r.ParseLocation (mapGet "" data "url") with
      | none => (g, Outcome.panicked)
      | some track =>
        let g1 : Globals L :=
          if !urlInMap r.rangeIgcFiles (mapGet "" data "url") || g.igcFiles.length == 0 then
            { g with
              igcFiles := mapSet g.igcFiles (mapGet "" data "url")
                { trackName := "igc" ++ Itoa g.igcFileCount, track := track }
              igcFileCount := g.igcFileCount + 1 }
          else g
        let response := "\x7b"
        let response := response ++ ("\"id\": " ++ "\"" ++
          (mapGet (URLTrack.zero L) g1.igcFiles (mapGet "" data "url")).trackName ++ "\"")
        let response := response ++ "\x7d"
        (g1, Outcome.response 200 (some "application/json") (L.Fprintf response))
  else if r.Method = "GET" then
    let response := "["
    let response := listLoop g.igcFiles r.rangeIgcFiles 0 response
    let response := response ++ "]"
    (g, Outcome.response 200 (some "application/json") (L.Fprintf response))
  else (g, Outcome.response 200 none "")

/-- The JSON text that `idHandler` hands to `fmt.Fprintf` for a track whose total
distance has been formatted as `length`. -/
def detailText {L : Lib} (t : Track L) (length : String) : String :=
  let response := "\x7b"
  let response := response ++ ("\"H_date\": " ++ "\"" ++ t.Date ++ "\",")
  let response := response ++ ("\"pilot\": " ++ "\"" ++ t.Pilot ++ "\",")
  let response := response ++ ("\"glider\": " ++ "\"" ++ t.GliderType ++ "\",")
  let response := response ++ ("\"glider_id\": " ++ "\"" ++ t.GliderID ++ "\",")
  let response := response ++ ("\"track_length\": " ++ "\"" ++ length ++ "\"")
  let response := response ++ "\x7d"
  response

/-- `idHandler` -/
def idHandler (L : Lib) : HandlerFunc L := fun g r =>
  let urlID := Base r.Path
  let trackURL := getTrackIndex r.rangeIgcFiles urlID
  if trackURL ≠ "" then
    match calculateTotalDistance (mapGet (URLTrack.zero L) g.igcFiles trackURL).track with
    | none => (g, Outcome.panicked)
    | some length =>
      (g, Outcome.response 200 (some "application/json")
        (L.Fprintf (detailText (mapGet (URLTrack.zero L) g.igcFiles trackURL).track length)))
  else (g, Outcome.response 404 none "")

/-- `fieldHandler`; indexing `pathArray` out of range panics. -/
def fieldHandler (L : Lib) : HandlerFunc L := fun g r =>
  let pathArray := Split r.Path
  match index pathArray ((pathArray.length : Int) - 1),
      index pathArray ((pathArray.length : Int) - 2) with
  | some field, some uniqueID =>
    let trackURL := getTrackIndex r.rangeIgcFiles uniqueID
    if trackURL ≠ "" then
      let t := (mapGet (URLTrack.zero L) g.igcFiles trackURL).track
      match calculateTotalDistance t with
      | none => (g, Outcome.panicked)
      | some length =>
        let something : List (String × String) :=
          [("pilot", t.Pilot), ("glider", t.GliderType), ("glider_id", t.GliderID),
           ("track_length", length), ("H_date", t.Date)]
        let response := mapGet "" something field
        (g, Outcome.response 200 none (L.Fprintf response))
    else (g, Outcome.response 404 none "")
  | _, _ => (g, Outcome.panicked)

/-! ## Router -/

/-- The character class `[a-zA-Z0-9]`. -/
def alnum : Re := Re.cls [('a', 'z'), ('A', 'Z'), ('0', '9')]

/-- `^/igcinfo/api$` -/
def patApi : Re := Re.seq Re.bol (Re.seq (Re.lit "/igcinfo/api") Re.eol)

/-- `^/igcinfo/api/igc$` -/
def patIgc : Re := Re.seq Re.bol (Re.seq (Re.lit "/igcinfo/api/igc") Re.eol)

/-- `^/igcinfo/api/igc/[a-zA-Z0-9]{3,10}$` -/
def patId : Re :=
  Re.seq Re.bol (Re.seq (Re.seq (Re.lit "/igcinfo/api/igc/") (Re.rep alnum 3 10)) Re.eol)

/-- `(pilot|glider|glider_id|track_length|H_date)` -/
def fieldAlt : Re :=
  Re.alt (Re.lit "pilot") (Re.alt (Re.lit "glider") (Re.alt (Re.lit "glider_id")
    (Re.alt (Re.lit "track_length") (Re.lit "H_date"))))

/-- `^/igcinfo/api/igc/[a-zA-Z0-9]{3,10}/(pilot|glider|glider_id|track_length|H_date)$` -/
def patField : Re :=
  Re.seq Re.bol (Re.seq (Re.seq (Re.lit "/igcinfo/api/igc/")
    (Re.seq (Re.rep alnum 3 10) (Re.seq (Re.lit "/") fieldAlt))) Re.eol)

/-- The map `urlMap` of `urlRouter`, from pattern to handler. -/
def urlMap (L : Lib) : List (Re × HandlerFunc L) :=
  [(patApi, apiHandler L), (patIgc, igcHandler L), (patId, idHandler L),
   (patField, fieldHandler L)]

/-- Lookup `urlMap[mapURL]` in a map from patterns to handlers; `none` is the nil
function value of an absent key. -/
def urlMapGet {L : Lib} : List (Re × HandlerFunc L) → Re → Option (HandlerFunc L)
  | [], _ => none
  | (k, h) :: rest, mapURL => if k = mapURL then some h else urlMapGet rest mapURL

/-- `regexMatches`, over the sequence `keys` in which `range urlMap` yields the
patterns; `none` is the nil function. -/
def regexMatches {L : Lib} (url : String) (urlMap : List (Re × HandlerFunc L)) :
    List Re → Option (HandlerFunc L)
  | [] => none
  | mapURL :: rest =>
    if MatchString mapURL url then urlMapGet urlMap mapURL
    else regexMatches url urlMap rest

/-- `urlRouter` -/
def urlRouter (L : Lib) : HandlerFunc L := fun g r =>
  match regexMatches r.Path (urlMap L) r.rangeUrlMap with
  | some result => result g r
  | none => (g, Outcome.response 404 none "")

/-! ## What package fmt writes for a format without operands -/

/-- The scan of `parsenum` of package fmt over a run of digits: the flag `isnum`
and the text after the digits; `none` when the number grows beyond a million, in
which case `parsenum` gives up and skips to the end of the format. -/
def parsenumLoop : Nat → Bool → List Char → Option (Bool × List Char)
  | _, isnum, [] => some (isnum, [])
  | num, isnum, c :: rest =>
    if c.isDigit then
      if num > 1000000 then none else parsenumLoop (num * 10 + (c.toNat - 48)) true rest
    else some (isnum, c :: rest)

/-- `parsenum(format, i, end)` of package fmt: whether a number was read and the
text after it. -/
def parsenum (s : List Char) : Bool × List Char :=
  match parsenumLoop 0 false s with
  | some r => r
  | none => (false, [])

/-- The length of a text in bytes, as Go's `len` counts it. -/
def byteLen (s : List Char) : Nat := (s.map Char.utf8Size).sum

/-- The text before and after the first `]`. -/
def splitAtBracket : List Char → Option (List Char × List Char)
  | [] => none
  | c :: rest =>
    if c = ']' then some ([], rest)
    else (splitAtBracket rest).map (fun p => (c :: p.1, p.2))

/-- `parseArgNumber` of package fmt on the text after an opening `[`: the text that
is left and whether a well-formed index `[n]` was read. -/
def parseArgNumber (rest : List Char) : List Char × Bool :=
  if byteLen ('[' :: rest) < 3 then (rest, false)
  else
    match splitAtBracket rest with
    | some (mid, after) => (after, parsenumLoop 0 false mid == some (true, []))
    | none => (rest, false)

/-- `argNumber` of package fmt when there are no operands: the text that is left,
whether an index was found, and whether the argument number went bad (every
index does, as there is no operand it could name). -/
def argNumber : List Char → List Char × Bool × Bool
  | '[' :: rest => ((parseArgNumber rest).1, (parseArgNumber rest).2, true)
  | s => (s, false, false)

/-- The flags `#`, `0`, `+`, `-` and space after a percent sign are skipped. -/
def skipFlags : List Char → List Char
  | [] => []
  | c :: rest =>
    if c = '#' ∨ c = '0' ∨ c = '+' ∨ c = '-' ∨ c = ' ' then skipFlags rest else c :: rest

/-- The width of a verb when there are no operands: `*` asks for an operand that is
missing, otherwise a number may be read.  Takes the text and whether an argument
index came just before; returns what is written, the text that is left, whether
an argument index came just before, and whether the argument number went bad. -/
def widthStep (s : List Char) (afterIndex : Bool) : List Char × List Char × Bool × Bool :=
  match s with
  | '*' :: rest => ("%!(BADWIDTH)".toList, rest, false, false)
  | s => ([], (parsenum s).2, afterIndex, afterIndex && (parsenum s).1)

/-- The precision of a verb when there are no operands, read after a `.`; arguments
and results as for `widthStep`. -/
def precisionStep (s : List Char) (afterIndex : Bool) :
    List Char × List Char × Bool × Bool :=
  match s with
  | '.' :: rest =>
    match (argNumber rest).1 with
    | '*' :: rest2 =>
      ("%!(BADPREC)".toList, rest2, false, afterIndex || (argNumber rest).2.2)
    | s2 => ([], (parsenum s2).2, (argNumber rest).2.1, afterIndex || (argNumber rest).2.2)
  | s => ([], s, afterIndex, false)

/-- The verb itself when there are no operands: nothing left is `%!(NOVERB)`, `%`
is a percent sign, and every other verb lacks its operand or has a bad index.
`written` is what width and precision wrote.  Returns what is written and the
format that is left. -/
def verbStep (written : List Char) (bad : Bool) : List Char → List Char × List Char
  | [] => (written ++ "%!(NOVERB)".toList, [])
  | verb :: rest =>
    if verb = '%' then (written ++ ['%'], rest)
    else if bad then (written ++ ('%' :: '!' :: verb :: "(BADINDEX)".toList), rest)
    else (written ++ ('%' :: '!' :: verb :: "(MISSING)".toList), rest)

/-- One verb of `doPrintf` of package fmt when there are no operands, on the text
after the percent sign: flags, argument index, width, precision, argument index
and the verb.  Returns what is written and the format that is left. -/
def doVerb (s0 : List Char) : List Char × List Char :=
  let a1 := argNumber (skipFlags s0)
  let w := widthStep a1.1 a1.2.1
  let p := precisionStep w.2.1 w.2.2.1
  let a3 : List Char × Bool × Bool :=
    if p.2.2.1 then (p.2.1, true, false) else argNumber p.2.1
  verbStep (w.1 ++ p.1) (a1.2.2 || w.2.2.2 || p.2.2.2 || a3.2.2) a3.1

/-- `doPrintf` of package fmt when there are no operands: text is copied up to a
percent sign, after which one verb is processed.  The first argument bounds the
number of steps; the length of the format is enough. -/
def doPrintf : Nat → List Char → List Char
  | 0, _ => []
  | _ + 1, [] => []
  | fuel + 1, c :: rest =>
    if c = '%' then (doVerb rest).1 ++ doPrintf fuel (doVerb rest).2
    else c :: doPrintf fuel rest

/-- What `fmt.Fprintf(w, format)` writes when it is given no operands. -/
def FprintfNoOperands (format : String) : String :=
  String.mk (doPrintf format.toList.length format.toList)

/-! ## Concrete collaborators for evaluation -/

/-- An instance of the collaborators on which the handlers can be evaluated:
points on the integer line, whole numbers for `float64` (which
`strconv.FormatFloat(x, 'f', 2, 64)` writes with two zero decimals), and
`fmt.Fprintf` without operands. -/
def demoLib : Lib :=
  { Point := Int, Float64 := Int, zero := 0, add := fun a b => a + b,
    Distance := fun a b => (a - b).natAbs, FormatFloat := fun x => Itoa x ++ ".00",
    Fprintf := FprintfNoOperands }

/-- A track of `demoLib` with three points. -/
def demoTrack : Track demoLib :=
  { Date := "2016-02-19 00:00:00 +0000 UTC", Pilot := "Miguel Angel Gordillo",
    GliderType := "RV8", GliderID := "EC-XLL", Points := ([0, 3, 7] : List Int) }

/-- A request that is filled in field by field. -/
def demoRequest (Method Path : String) (Body : Option (List (String × String)))
    (parse : String → Option (Track demoLib))
    (rangeIgcFiles : List (String × URLTrack demoLib)) : Request demoLib :=
  { Method := Method, Path := Path, Body := Body, ParseLocation := parse, Now := 100,
    rangeIgcFiles := rangeIgcFiles, rangeUrlMap := [patField, patId, patIgc, patApi] }

/-! ## Runs of the service -/

/-- The answer of `igcHandler` to a submission that was given the id `name`. -/
def idResponse (L : Lib) (name : String) : Outcome :=
  Outcome.response 200 (some "application/json") (L.Fprintf ("\x7b\"id\": \"" ++ name ++ "\"\x7d"))

/-- The distinct URLs of a sequence of submissions, in the order in which each was
submitted for the first time. -/
def firstSeen (urls : List String) : List String :=
  urls.foldl (fun seen u => if u ∈ seen then seen else seen ++ [u]) []

/-- A run of successful submissions from the initial globals: each step is a POST
whose body decodes and whose location the parser accepts, served with some order
of iteration over `igcFiles`.  The list records, oldest first, the URL of each
submission and what `igcHandler` answered. -/
inductive SubmitRun (L : Lib) (t0 : Int) : List (String × Outcome) → Globals L → Prop where
  | start : SubmitRun L t0 [] (Globals.init L t0)
  | submit {tr : List (String × Outcome)} {g : Globals L} (r : Request L)
      (data : List (String × String)) (track : Track L) :
      SubmitRun L t0 tr g → r.Method = "POST" → r.Body = some data →
      r.ParseLocation (mapGet "" data "url") = some track →
      r.rangeIgcFiles.Perm g.igcFiles →
      SubmitRun L t0 (tr ++ [(mapGet "" data "url", (igcHandler L g r).2)]) (igcHandler L g r).1

/-- The globals that the service can reach from `g0` by serving requests through
`urlRouter`, each with some order of iteration over `igcFiles` and over the pattern
map. -/
inductive ReachableFrom (L : Lib) (g0 : Globals L) : Globals L → Prop where
  | refl : ReachableFrom L g0 g0
  | serve {g : Globals L} (r : Request L) :
      ReachableFrom L g0 g → r.rangeIgcFiles.Perm g.igcFiles →
      r.rangeUrlMap.Perm ((urlMap L).map Prod.fst) → ReachableFrom L g0 (urlRouter L g r).1

/-- The globals that the service can reach from its start. -/
def Reachable (L : Lib) (g : Globals L) : Prop :=
  ∃ t0 : Int, ReachableFrom L (Globals.init L t0) g

/-- The number that a list of decimal digit characters denotes. -/
def digitsValue (cs : List Char) : Nat :=
  cs.foldl (fun a c => 10 * a + (c.toNat - 48)) 0

/-- The shape of the globals in every state the service reaches: the keys are
distinct, the counter is one more than the number of entries, and the entry at
position `k` (from zero, in order of insertion) is named `igc` followed by `k+1`. -/
def WellNumbered {L : Lib} (g : Globals L) : Prop :=
  (g.igcFiles.map Prod.fst).Nodup ∧
  g.igcFileCount = (g.igcFiles.length : Int) + 1 ∧
  ∀ (k : Nat) (e : String × URLTrack L), g.igcFiles[k]? = some e →
    e.2.trackName = "igc" ++ Itoa ((k : Int) + 1)

/-- A submission of the location `u` that the parser accepts. -/
def demoSubmit (u : String) (rangeIgcFiles : List (String × URLTrack demoLib)) :
    Request demoLib :=
  demoRequest "POST" "/igcinfo/api/igc" (some [("url", u)]) (fun _ => some demoTrack)
    rangeIgcFiles

/-- A submission of the location `u` that the parser rejects. -/
def demoReject (u : String) (rangeIgcFiles : List (String × URLTrack demoLib)) :
    Request demoLib :=
  demoRequest "POST" "/igcinfo/api/igc" (some [("url", u)]) (fun _ => none) rangeIgcFiles

/-- A submission whose body has no field `url`, with a parser that accepts the
empty location. -/
def demoSubmitNoUrl (rangeIgcFiles : List (String × URLTrack demoLib)) : Request demoLib :=
  demoRequest "POST" "/igcinfo/api/igc" (some []) (fun _ => some demoTrack) rangeIgcFiles

/-- A GET request for a path. -/
def demoGet (Path : String) (rangeIgcFiles : List (String × URLTrack demoLib)) :
    Request demoLib :=
  demoRequest "GET" Path none (fun _ => none) rangeIgcFiles

/-- The entry that the first submission of a location creates. -/
def demoEntry (u : String) : String × URLTrack demoLib :=
  (u, { trackName := "igc1", track := demoTrack })

/-- The globals after the location `a` has been registered. -/
def demoGlobals : Globals demoLib :=
  { igcFileCount := 2, igcFiles := [demoEntry "a"], timeStarted := 0 }

/-! ## The shape of a duration string, in the words of the specification -/

/-- The token of one component of a duration: its decimal numeral followed by the
letter of the unit when the component is not zero, nothing otherwise. -/
def durationToken (component : Int) (letter : String) : String :=
  if component = 0 then "" else Itoa component ++ letter

/-- The duration string that the specification describes for given components:
the marker `P`, the tokens of years, months, weeks and days in that order, and,
unless hours, minutes and seconds are all zero, the separator `T` followed by the
tokens of hours, minutes and seconds in that order. -/
def durationShape (years months weeks days hours minutes seconds : Int) : String :=
  "P" ++ durationToken years "Y" ++ durationToken months "M" ++ durationToken weeks "W" ++
    durationToken days "D" ++
    (if hours = 0 ∧ minutes = 0 ∧ seconds = 0 then ""
     else "T" ++ durationToken hours "H" ++ durationToken minutes "M" ++
       durationToken seconds "S")

/-! ## The components of a duration -/

/-- The seven components that `parseTimeDifference` computes. -/
structure Components where
  years : Int
  months : Int
  weeks : Int
  days : Int
  hours : Int
  minutes : Int
  seconds : Int

/-- The arithmetic of `parseTimeDifference` (the statements before the first `if`):
each component is the quotient of what the previous ones left over. -/
def timeComponents (timeDifference : Int) : Components :=
  let timeLeft := timeDifference
  let years := timeDifference.tdiv 31557600
  let timeLeft := timeLeft - years * 31557600
  let months := timeLeft.tdiv 2629800
  let timeLeft := timeLeft - months * 2629800
  let weeks := timeLeft.tdiv 604800
  let timeLeft := timeLeft - weeks * 604800
  let days := timeLeft.tdiv 86400
  let timeLeft := timeLeft - days * 86400
  let hours := timeLeft.tdiv 3600
  let timeLeft := timeLeft - hours * 3600
  let minutes := timeLeft.tdiv 60
  let timeLeft := timeLeft - minutes * 60
  let seconds := timeLeft
  { years := years, months := months, weeks := weeks, days := days, hours := hours,
    minutes := minutes, seconds := seconds }

/-! ## The total distance, in the words of the specification -/

/-- The distances between consecutive points, in sequence order. -/
def pairDistances (L : Lib) : List L.Point → List L.Float64
  | a :: b :: rest => L.Distance a b :: pairDistances L (b :: rest)
  | _ => []

/-- The total distance that the specification describes: zero, to which the
distances between consecutive points are added in sequence order. -/
def totalDistance (L : Lib) (points : List L.Point) : L.Float64 :=
  (pairDistances L points).foldl L.add L.zero

/-! ## The listing, in the words of the specification -/

/-- The JSON array of ids that the specification describes: `[`, the quoted ids
separated by single commas, `]`. -/
def listingText (names : List String) : String :=
  "[" ++ String.intercalate "," (names.map (fun n => "\"" ++ n ++ "\"")) ++ "]"

/-! ## Reading the pilot out of a detail text -/

/-- The text that follows the first occurrence of `marker` in a text, if the marker
occurs. -/
def afterFirst (marker : List Char) : List Char → Option (List Char)
  | [] => if marker = [] then some [] else none
  | c :: rest =>
    if marker.isPrefixOf (c :: rest) then some ((c :: rest).drop marker.length)
    else afterFirst marker rest

/-- The pilot value that appears between the quotes after `"pilot":` in a text:
what follows the first occurrence of `"pilot": "`, up to the next double quote. -/
def pilotValue (body : String) : Option String :=
  (afterFirst "\"pilot\": \"".toList body.toList).map
    (fun t => String.mk (t.takeWhile (fun c => c != '"')))

/-- A track whose pilot name contains a double quote. -/
def quoteTrack : Track demoLib :=
  { Date := "2016-02-19 00:00:00 +0000 UTC", Pilot := "a\"b", GliderType := "RV8",
    GliderID := "EC-XLL", Points := ([0, 3, 7] : List Int) }

/-- A submission of the location `u` for which the parser returns `quoteTrack`. -/
def quoteSubmit (u : String) (rangeIgcFiles : List (String × URLTrack demoLib)) :
    Request demoLib :=
  demoRequest "POST" "/igcinfo/api/igc" (some [("url", u)]) (fun _ => some quoteTrack)
    rangeIgcFiles

/-- The entry that the first submission of `quoteSubmit` creates. -/
def quoteEntry (u : String) : String × URLTrack demoLib :=
  (u, { trackName := "igc1", track := quoteTrack })

/-! ## Reading a duration string back -/

/-- Reads one token off the front of a duration text: when the first character
after the leading digits is `letter`, the number that the digits denote and the
text after the letter; otherwise zero and the text as it is. -/
def readToken (letter : Char) (s : List Char) : Nat × List Char :=
  match s.dropWhile Char.isDigit with
  | c :: rest => if c = letter then (digitsValue (s.takeWhile Char.isDigit), rest) else (0, s)
  | [] => (0, s)

/-- Reads the seven components off a duration text: after the marker `P` the tokens
of years, months, weeks and days, and after a separator `T` those of hours,
minutes and seconds. -/
def readDuration (s : List Char) : List Nat :=
  match s with
  | 'P' :: s0 =>
    let y := readToken 'Y' s0
    let mo := readToken 'M' y.2
    let w := readToken 'W' mo.2
    let d := readToken 'D' w.2
    match d.2 with
    | 'T' :: s5 =>
      let h := readToken 'H' s5
      let mi := readToken 'M' h.2
      let se := readToken 'S' mi.2
      [y.1, mo.1, w.1, d.1, h.1, mi.1, se.1]
    | _ => [y.1, mo.1, w.1, d.1, 0, 0, 0]
  | _ => []

/-- The characters of the token of a component. -/
def tokL (c : Nat) (l : Char) : List Char :=
  if c = 0 then [] else (Nat.repr c).toList ++ [l]

/-- The characters of the time part of a duration string. -/
def timeL (h mi s : Nat) : List Char :=
  if h = 0 ∧ mi = 0 ∧ s = 0 then []
  else 'T' :: (tokL h 'H' ++ (tokL mi 'M' ++ (tokL s 'S' ++ [])))

/-- The first character of a text that is not a digit, if there is one. -/
def fnd (s : List Char) : Option Char := (s.dropWhile Char.isDigit).head?

/-! ## Field projection consistency, as a check on two answers -/

/-- The body of an answer; a handler that panicked wrote none. -/
def Outcome.body : Outcome → String
  | Outcome.panicked => ""
  | Outcome.response _ _ body => body

/-- Whether the text written by the field handler is the pilot value that appears
between the quotes after `"pilot":` in the body written by the detail handler. -/
def pilotConsistent (detail field : Outcome) : Bool :=
  pilotValue detail.body == some field.body

/-- A submission of the location `u` for which the parser returns the track `t`. -/
def trackSubmit (t : Track demoLib) (u : String)
    (rangeIgcFiles : List (String × URLTrack demoLib)) : Request demoLib :=
  demoRequest "POST" "/igcinfo/api/igc" (some [("url", u)]) (fun _ => some t) rangeIgcFiles

/-- The entry named `igc1` that holds the track `t` under the URL `u`. -/
def trackEntry (t : Track demoLib) (u : String) : String × URLTrack demoLib :=
  (u, { trackName := "igc1", track := t })

/-- A track whose pilot name ends in a percent sign. -/
def percentTrack : Track demoLib :=
  { Date := "2016-02-19 00:00:00 +0000 UTC", Pilot := "100%", GliderType := "RV8",
    GliderID := "EC-XLL", Points := ([0, 3, 7] : List Int) }

/-- A track whose date is rendered with the zone abbreviation `"pilot": "zz`. -/
def zoneTrack : Track demoLib :=
  { Date := "2016-02-19 00:00:00 +0000 \"pilot\": \"zz", Pilot := "Miguel Angel Gordillo",
    GliderType := "RV8", GliderID := "EC-XLL", Points := ([0, 3, 7] : List Int) }

/-- A track of another pilot. -/
def bobTrack : Track demoLib :=
  { Date := "2016-02-19 00:00:00 +0000 UTC", Pilot := "Bob", GliderType := "RV8",
    GliderID := "EC-XLL", Points := ([0, 3, 7] : List Int) }

/-- Globals in which two entries carry the id `igc1`. -/
def dupGlobals : Globals demoLib :=
  { igcFileCount := 3, igcFiles := [trackEntry demoTrack "a", trackEntry bobTrack "b"],
    timeStarted := 0 }

/-! ## Facts about the map operations and the scans -/

theorem urlInMap_iff {L : Lib} (l : List (String × URLTrack L)) (u : String) :
    urlInMap l u = true ↔ u ∈ l.map Prod.fst := by
  induction l with
  | nil => simp [urlInMap]
  | cons e rest ih =>
    obtain ⟨k, v⟩ := e
    by_cases h : k = u
    · simp [urlInMap, h]
    · simp [urlInMap, h, ih, Ne.symm h]

theorem urlInMap_perm {L : Lib} {l1 l2 : List (String × URLTrack L)} (h : l1.Perm l2)
    (u : String) : urlInMap l1 u = urlInMap l2 u := by
  have e : (urlInMap l1 u = true) ↔ (urlInMap l2 u = true) := by
    rw [urlInMap_iff, urlInMap_iff]
    exact (h.map Prod.fst).mem_iff
  cases h1 : urlInMap l1 u <;> cases h2 : urlInMap l2 u <;> simp_all

theorem mapSet_of_not_mem {β : Type} (m : List (String × β)) (k : String) (v : β)
    (h : k ∉ m.map Prod.fst) : mapSet m k v = m ++ [(k, v)] := by
  induction m with
  | nil => rfl
  | cons e rest ih =>
    obtain ⟨k0, v0⟩ := e
    simp only [List.map_cons, List.mem_cons, not_or] at h
    simp [mapSet, Ne.symm h.1, ih h.2]

theorem mapGet_append_of_mem {β : Type} (z : β) (m : List (String × β)) (e : String × β)
    (k : String) (h : k ∈ m.map Prod.fst) : mapGet z (m ++ [e]) k = mapGet z m k := by
  induction m with
  | nil => simp at h
  | cons e0 rest ih =>
    obtain ⟨k0, v0⟩ := e0
    by_cases hk : k = k0
    · simp [mapGet, List.lookup, hk]
    · have h2 : k ∈ rest.map Prod.fst := by
        simpa [hk] using h
      have hb : (k == k0) = false := by simp [hk]
      have := ih h2
      simp only [mapGet] at this
      simp [mapGet, List.lookup, hb, this]

theorem mapGet_append_of_not_mem {β : Type} (z : β) (m : List (String × β)) (k : String)
    (v : β) (h : k ∉ m.map Prod.fst) : mapGet z (m ++ [(k, v)]) k = v := by
  induction m with
  | nil => simp [mapGet, List.lookup]
  | cons e0 rest ih =>
    obtain ⟨k0, v0⟩ := e0
    simp only [List.map_cons, List.mem_cons, not_or] at h
    have hb : (k == k0) = false := by simp [h.1]
    have := ih h.2
    simp only [mapGet] at this
    simp [mapGet, List.lookup, hb, this]

/-- The text of the answer to a submission, as one string around the id. -/
theorem idText_eq (name : String) :
    "\x7b" ++ ("\"id\": " ++ "\"" ++ name ++ "\"") ++ "\x7d" = "\x7b\"id\": \"" ++ name ++ "\"\x7d" := by
  apply String.ext
  simp [String.data_append]

/-- A submission of a URL that is not yet a key adds one entry, named after the
counter, and increments the counter. -/
theorem igcHandler_post_new {L : Lib} (g : Globals L) (r : Request L)
    (data : List (String × String)) (track : Track L)
    (hm : r.Method = "POST") (hb : r.Body = some data)
    (hp : r.ParseLocation (mapGet "" data "url") = some track)
    (ho : r.rangeIgcFiles.Perm g.igcFiles)
    (hn : mapGet "" data "url" ∉ g.igcFiles.map Prod.fst) :
    igcHandler L g r =
      ({ g with
          igcFiles := g.igcFiles ++
            [(mapGet "" data "url", { trackName := "igc" ++ Itoa g.igcFileCount, track := track })]
          igcFileCount := g.igcFileCount + 1 },
        idResponse L ("igc" ++ Itoa g.igcFileCount)) := by
  have hu : urlInMap r.rangeIgcFiles (mapGet "" data "url") = false := by
    rw [urlInMap_perm ho]
    cases h : urlInMap g.igcFiles (mapGet "" data "url")
    · rfl
    · exact absurd ((urlInMap_iff _ _).1 h) hn
  simp only [igcHandler, hm, hb, hp, hu, if_true, Bool.not_false, Bool.true_or, idResponse]
  rw [mapSet_of_not_mem _ _ _ hn, mapGet_append_of_not_mem _ _ _ _ hn, idText_eq]

/-- A submission of a URL that is already a key changes nothing and answers with
the id stored under that key. -/
theorem igcHandler_post_known {L : Lib} (g : Globals L) (r : Request L)
    (data : List (String × String)) (track : Track L)
    (hm : r.Method = "POST") (hb : r.Body = some data)
    (hp : r.ParseLocation (mapGet "" data "url") = some track)
    (ho : r.rangeIgcFiles.Perm g.igcFiles)
    (hk : mapGet "" data "url" ∈ g.igcFiles.map Prod.fst) :
    igcHandler L g r =
      (g, idResponse L (mapGet (URLTrack.zero L) g.igcFiles (mapGet "" data "url")).trackName) := by
  have hu : urlInMap r.rangeIgcFiles (mapGet "" data "url") = true := by
    rw [urlInMap_perm ho]
    exact (urlInMap_iff _ _).2 hk
  have hl : (g.igcFiles.length == 0) = false := by
    cases hg : g.igcFiles with
    | nil => rw [hg] at hk; simp at hk
    | cons e rest => rfl
  simp only [igcHandler, hm, hb, hp, hu, hl, if_true, Bool.not_true, Bool.or_self, idResponse]
  rw [idText_eq]
  rfl

/-- A submission whose body cannot be decoded, or whose location the parser
rejects, panics and leaves the globals as they were. -/
theorem igcHandler_post_fail {L : Lib} (g : Globals L) (r : Request L)
    (hm : r.Method = "POST")
    (hf : ∀ data, r.Body = some data → r.ParseLocation (mapGet "" data "url") = none) :
    igcHandler L g r = (g, Outcome.panicked) := by
  cases hb : r.Body with
  | none => simp [igcHandler, hm, hb]
  | some data => simp [igcHandler, hm, hb, hf data hb]

/-! ## Decimal numerals -/

theorem digitChar_value (d : Nat) (h : d < 10) : (Nat.digitChar d).toNat - 48 = d := by
  interval_cases d <;> rfl

theorem toDigitsCore_append (fuel : Nat) : ∀ (n : Nat) (ds : List Char),
    Nat.toDigitsCore 10 fuel n ds = Nat.toDigitsCore 10 fuel n [] ++ ds := by
  induction fuel with
  | zero => intro n ds; simp [Nat.toDigitsCore]
  | succ f ih =>
    intro n ds
    simp only [Nat.toDigitsCore]
    split
    · simp
    · rw [ih (n / 10) (Nat.digitChar (n % 10) :: ds), ih (n / 10) [Nat.digitChar (n % 10)]]
      simp

theorem digitsValue_toDigitsCore (fuel : Nat) : ∀ n : Nat, n < fuel →
    digitsValue (Nat.toDigitsCore 10 fuel n []) = n := by
  induction fuel with
  | zero => intro n h; omega
  | succ f ih =>
    intro n h
    simp only [Nat.toDigitsCore]
    split
    · rename_i h0
      have : n < 10 := by omega
      simp [digitsValue, digitChar_value (n % 10) (Nat.mod_lt _ (by decide))]
      omega
    · rename_i h0
      rw [toDigitsCore_append]
      have hlt : n / 10 < f := by omega
      have := ih (n / 10) hlt
      simp only [digitsValue] at this
      simp only [digitsValue, List.foldl_append, List.foldl_cons, List.foldl_nil, this,
        digitChar_value (n % 10) (Nat.mod_lt _ (by decide))]
      omega

/-- Different numbers have different decimal numerals. -/
theorem repr_injective {a b : Nat} (h : Nat.repr a = Nat.repr b) : a = b := by
  have h1 : Nat.toDigits 10 a = Nat.toDigits 10 b := by
    have := congrArg String.data h
    simpa [Nat.repr, List.asString] using this
  have ha := digitsValue_toDigitsCore (a + 1) a (Nat.lt_succ_self a)
  have hb := digitsValue_toDigitsCore (b + 1) b (Nat.lt_succ_self b)
  simp only [Nat.toDigits] at h1
  rw [← ha, ← hb, h1]

theorem Itoa_succ (k : Nat) : Itoa ((k : Int) + 1) = Nat.repr (k + 1) := rfl

/-- Ids minted from different counter values differ. -/
theorem igcName_injective {j k : Nat}
    (h : "igc" ++ Itoa ((j : Int) + 1) = "igc" ++ Itoa ((k : Int) + 1)) : j = k := by
  rw [Itoa_succ, Itoa_succ] at h
  have h1 := congrArg String.data h
  simp only [String.data_append, List.append_cancel_left_eq] at h1
  have := repr_injective (String.ext h1)
  omega

/-! ## The numbering invariant -/

theorem wellNumbered_init (L : Lib) (t0 : Int) : WellNumbered (Globals.init L t0) := by
  refine ⟨by simp [Globals.init], by simp [Globals.init], ?_⟩
  intro k e h
  simp [Globals.init] at h

theorem wellNumbered_append {L : Lib} {g : Globals L} (hw : WellNumbered g) (u : String)
    (track : Track L) (hn : u ∉ g.igcFiles.map Prod.fst) :
    WellNumbered ({ g with
      igcFiles := g.igcFiles ++ [(u, { trackName := "igc" ++ Itoa g.igcFileCount, track := track })]
      igcFileCount := g.igcFileCount + 1 } : Globals L) := by
  obtain ⟨h1, h2, h3⟩ := hw
  refine ⟨?_, ?_, ?_⟩
  · simp only [List.map_append, List.map_cons, List.map_nil]
    exact List.Nodup.append h1 (List.nodup_singleton u) (by simpa using hn)
  · simp [h2]
  · intro k e hk
    simp only at hk
    by_cases hlt : k < g.igcFiles.length
    · rw [List.getElem?_append_left hlt] at hk
      exact h3 k e hk
    · have hge : g.igcFiles.length ≤ k := Nat.le_of_not_lt hlt
      rw [List.getElem?_append_right hge] at hk
      by_cases hz : k - g.igcFiles.length = 0
      · rw [hz] at hk
        simp only [List.getElem?_cons_zero, Option.some.injEq] at hk
        subst hk
        have : k = g.igcFiles.length := by omega
        simp [h2, this]
      · obtain ⟨m, hm⟩ := Nat.exists_eq_succ_of_ne_zero hz
        rw [hm] at hk
        simp at hk

/-- Whatever the request, `igcHandler` either leaves the globals alone or appends
one entry for a URL that was not a key, named after the counter, and increments
the counter. -/
theorem igcHandler_state {L : Lib} (g : Globals L) (r : Request L)
    (ho : r.rangeIgcFiles.Perm g.igcFiles) :
    (igcHandler L g r).1 = g ∨
    ∃ (u : String) (track : Track L), u ∉ g.igcFiles.map Prod.fst ∧
      (igcHandler L g r).1 = { g with
        igcFiles := g.igcFiles ++
          [(u, { trackName := "igc" ++ Itoa g.igcFileCount, track := track })]
        igcFileCount := g.igcFileCount + 1 } := by
  by_cases hm : r.Method = "POST"
  · cases hb : r.Body with
    | none => left; simp [igcHandler, hm, hb]
    | some data =>
      cases hp : r.ParseLocation (mapGet "" data "url") with
      | none => left; simp [igcHandler, hm, hb, hp]
      | some track =>
        by_cases hk : mapGet "" data "url" ∈ g.igcFiles.map Prod.fst
        · left; rw [igcHandler_post_known g r data track hm hb hp ho hk]
        · right
          exact ⟨_, track, hk, by rw [igcHandler_post_new g r data track hm hb hp ho hk]⟩
  · left
    by_cases hg : r.Method = "GET" <;> simp [igcHandler, hm, hg]

theorem wellNumbered_igcHandler {L : Lib} {g : Globals L} (hw : WellNumbered g) (r : Request L)
    (ho : r.rangeIgcFiles.Perm g.igcFiles) : WellNumbered (igcHandler L g r).1 := by
  rcases igcHandler_state g r ho with h | ⟨u, track, hn, h⟩
  · rw [h]; exact hw
  · rw [h]; exact wellNumbered_append hw u track hn

/-! ## The router changes the globals only through `igcHandler` -/

theorem urlMapGet_urlMap {L : Lib} (k : Re) (h : HandlerFunc L)
    (e : urlMapGet (urlMap L) k = some h) :
    h = apiHandler L ∨ h = igcHandler L ∨ h = idHandler L ∨ h = fieldHandler L := by
  simp only [urlMap, urlMapGet] at e
  split_ifs at e <;> cases e <;> simp

theorem regexMatches_some {L : Lib} (url : String) (m : List (Re × HandlerFunc L))
    (keys : List Re) (h : HandlerFunc L) (e : regexMatches url m keys = some h) :
    ∃ k, k ∈ keys ∧ MatchString k url = true ∧ urlMapGet m k = some h := by
  induction keys with
  | nil => simp [regexMatches] at e
  | cons k rest ih =>
    simp only [regexMatches] at e
    by_cases hk : MatchString k url = true
    · rw [if_pos hk] at e
      exact ⟨k, List.mem_cons_self _ _, hk, e⟩
    · rw [if_neg hk] at e
      obtain ⟨k1, h1, h2, h3⟩ := ih e
      exact ⟨k1, List.mem_cons_of_mem _ h1, h2, h3⟩

theorem apiHandler_state {L : Lib} (g : Globals L) (r : Request L) :
    (apiHandler L g r).1 = g := rfl

theorem idHandler_state {L : Lib} (g : Globals L) (r : Request L) :
    (idHandler L g r).1 = g := by
  simp only [idHandler]
  split_ifs
  · split <;> rfl
  · rfl

theorem fieldHandler_state {L : Lib} (g : Globals L) (r : Request L) :
    (fieldHandler L g r).1 = g := by
  simp only [fieldHandler]
  split
  · split_ifs
    · split <;> rfl
    · rfl
  · rfl

theorem urlRouter_state {L : Lib} (g : Globals L) (r : Request L) :
    (urlRouter L g r).1 = g ∨ (urlRouter L g r).1 = (igcHandler L g r).1 := by
  simp only [urlRouter]
  cases hm : regexMatches r.Path (urlMap L) r.rangeUrlMap with
  | none => left; rfl
  | some h =>
    obtain ⟨k, _, _, hk⟩ := regexMatches_some _ _ _ _ hm
    rcases urlMapGet_urlMap k h hk with e | e | e | e
    · left; rw [e]; rfl
    · right; rw [e]
    · left; rw [e]; exact idHandler_state g r
    · left; rw [e]; exact fieldHandler_state g r

theorem reachableFrom_wellNumbered {L : Lib} {g0 g : Globals L} (hr : ReachableFrom L g0 g)
    (h0 : WellNumbered g0) : WellNumbered g := by
  induction hr with
  | refl => exact h0
  | serve r _ ho _ ih =>
    rcases urlRouter_state _ r with h | h
    · rw [h]; exact ih
    · rw [h]; exact wellNumbered_igcHandler ih r ho

theorem reachable_wellNumbered {L : Lib} {g : Globals L} (hr : Reachable L g) :
    WellNumbered g := by
  obtain ⟨t0, h⟩ := hr
  exact reachableFrom_wellNumbered h (wellNumbered_init L t0)

/-- Serving requests never removes or alters an entry. -/
theorem reachableFrom_mem {L : Lib} {g0 g : Globals L} (hr : ReachableFrom L g0 g)
    (e : String × URLTrack L) (he : e ∈ g0.igcFiles) : e ∈ g.igcFiles := by
  induction hr with
  | refl => exact he
  | @serve g1 r _ ho _ ih =>
    rcases urlRouter_state g1 r with h | h
    · rw [h]; exact ih
    · rw [h]
      rcases igcHandler_state g1 r ho with h2 | ⟨u, track, _, h2⟩
      · rw [h2]; exact ih
      · rw [h2]; exact List.mem_append_left _ ih

/-! ## Lookups in a numbered registry -/

/-- In a numbered registry no two entries carry the same id. -/
theorem names_injective {L : Lib} {g : Globals L} (hw : WellNumbered g)
    {a b : String × URLTrack L} (ha : a ∈ g.igcFiles) (hb : b ∈ g.igcFiles)
    (hn : a.2.trackName = b.2.trackName) : a = b := by
  obtain ⟨i, hi⟩ := List.mem_iff_getElem?.1 ha
  obtain ⟨j, hj⟩ := List.mem_iff_getElem?.1 hb
  have e1 := hw.2.2 i a hi
  have e2 := hw.2.2 j b hj
  have : i = j := igcName_injective (by rw [← e1, ← e2, hn])
  subst this
  rw [hi] at hj
  exact Option.some.inj hj

theorem mapGet_of_mem {β : Type} (z : β) (m : List (String × β)) (hnd : (m.map Prod.fst).Nodup)
    (u : String) (v : β) (h : (u, v) ∈ m) : mapGet z m u = v := by
  induction m with
  | nil => simp at h
  | cons e0 rest ih =>
    obtain ⟨k0, v0⟩ := e0
    simp only [List.map_cons, List.nodup_cons] at hnd
    rcases List.mem_cons.1 h with h1 | h1
    · cases h1
      simp [mapGet, List.lookup]
    · have hne : u ≠ k0 := by
        intro e
        apply hnd.1
        rw [← e]
        exact List.mem_map_of_mem Prod.fst h1
      have hb : (u == k0) = false := by simp [hne]
      have := ih hnd.2 h1
      simp only [mapGet] at this
      simp [mapGet, List.lookup, hb, this]

theorem getTrackIndex_of_mem {L : Lib} (l : List (String × URLTrack L))
    (hinj : ∀ a ∈ l, ∀ b ∈ l, a.2.trackName = b.2.trackName → a = b)
    (u : String) (e : URLTrack L) (h : (u, e) ∈ l) : getTrackIndex l e.trackName = u := by
  induction l with
  | nil => simp at h
  | cons e0 rest ih =>
    obtain ⟨k0, v0⟩ := e0
    by_cases hn : v0.trackName = e.trackName
    · have := hinj (k0, v0) (List.mem_cons_self _ _) (u, e) h hn
      cases this
      simp [getTrackIndex]
    · have hr : (u, e) ∈ rest := by
        rcases List.mem_cons.1 h with h1 | h1
        · cases h1; exact absurd rfl hn
        · exact h1
      simp only [getTrackIndex, if_neg hn]
      exact ih (fun a ha b hb => hinj a (List.mem_cons_of_mem _ ha) b (List.mem_cons_of_mem _ hb)) hr

theorem getTrackIndex_of_unknown {L : Lib} (l : List (String × URLTrack L)) (id : String)
    (h : ∀ e ∈ l, e.2.trackName ≠ id) : getTrackIndex l id = "" := by
  induction l with
  | nil => rfl
  | cons e0 rest ih =>
    obtain ⟨k0, v0⟩ := e0
    have h0 : v0.trackName ≠ id := h (k0, v0) (List.mem_cons_self _ _)
    simp only [getTrackIndex, if_neg h0]
    exact ih (fun e he => h e (List.mem_cons_of_mem _ he))

/-- The loop of `calculateTotalDistance` never indexes outside `Points`, so the
function always returns. -/
theorem calculateTotalDistance_returns {L : Lib} (t : Track L) :
    ∃ length, calculateTotalDistance t = some length := by
  have key : ∀ (is : List Nat) (x : L.Float64), (∀ i ∈ is, i + 1 < t.Points.length) →
      ∃ y, is.foldl
        (fun (acc : Option L.Float64) (i : Nat) =>
          match acc, index t.Points (i : Int), index t.Points ((i : Int) + 1) with
          | some tot, some a, some b => some (L.add tot (L.Distance a b))
          | _, _, _ => none)
        (some x) = some y := by
    intro is
    induction is with
    | nil => intro x _; exact ⟨x, rfl⟩
    | cons i rest ih =>
      intro x h
      have hi : i + 1 < t.Points.length := h i (List.mem_cons_self _ _)
      have e1 : index t.Points (i : Int) = some (t.Points.get ⟨i, by omega⟩) := by
        have : ¬ ((i : Int) < 0) := by omega
        simp [index, this, List.getElem?_eq_getElem (show i < t.Points.length by omega)]
      have e2 : index t.Points ((i : Int) + 1) = some (t.Points.get ⟨i + 1, hi⟩) := by
        have : ¬ ((i : Int) + 1 < 0) := by omega
        have e : ((i : Int) + 1).toNat = i + 1 := by omega
        simp [index, this, e, List.getElem?_eq_getElem hi]
      rw [List.foldl_cons]
      simp only [e1, e2]
      exact ih _ (fun j hj => h j (List.mem_cons_of_mem _ hj))
  obtain ⟨y, hy⟩ := key (List.range ((t.Points.length : Int) - 1).toNat) L.zero (by
    intro i hi
    have := List.mem_range.1 hi
    omega)
  exact ⟨L.FormatFloat y, by simp only [calculateTotalDistance, hy, Option.map_some']⟩

/-! ## Distinct URLs in order of first submission -/

theorem firstSeen_append (urls : List String) (u : String) :
    firstSeen (urls ++ [u]) =
      if u ∈ firstSeen urls then firstSeen urls else firstSeen urls ++ [u] := by
  simp [firstSeen, List.foldl_append]

theorem mem_firstSeen (urls : List String) (u : String) : u ∈ firstSeen urls ↔ u ∈ urls := by
  induction urls using List.reverseRecOn with
  | nil => simp [firstSeen]
  | append_singleton l a ih =>
    rw [firstSeen_append]
    by_cases h : a ∈ firstSeen l
    · rw [if_pos h]
      constructor
      · intro hu; exact List.mem_append_left _ (ih.1 hu)
      · intro hu
        rcases List.mem_append.1 hu with h1 | h1
        · exact ih.2 h1
        · rw [List.mem_singleton.1 h1]; exact h
    · rw [if_neg h]
      simp [ih]

theorem firstSeen_nodup (urls : List String) : (firstSeen urls).Nodup := by
  induction urls using List.reverseRecOn with
  | nil => simp [firstSeen]
  | append_singleton l a ih =>
    rw [firstSeen_append]
    by_cases h : a ∈ firstSeen l
    · rw [if_pos h]; exact ih
    · rw [if_neg h]
      exact List.Nodup.append ih (List.nodup_singleton a) (by simpa using h)

/-- In a numbered registry the id stored under a key is `igc` followed by the
position of the key, counted from one. -/
theorem mapGet_trackName {L : Lib} {g : Globals L} (hw : WellNumbered g) (u : String)
    (hk : u ∈ g.igcFiles.map Prod.fst) :
    (mapGet (URLTrack.zero L) g.igcFiles u).trackName =
      "igc" ++ Itoa ((List.indexOf u (g.igcFiles.map Prod.fst) : Int) + 1) := by
  have hlt : List.indexOf u (g.igcFiles.map Prod.fst) < (g.igcFiles.map Prod.fst).length :=
    List.indexOf_lt_length.2 hk
  have hlt2 : List.indexOf u (g.igcFiles.map Prod.fst) < g.igcFiles.length := by
    simpa using hlt
  have hget : g.igcFiles[List.indexOf u (g.igcFiles.map Prod.fst)]? =
      some (g.igcFiles.get ⟨_, hlt2⟩) := List.getElem?_eq_getElem hlt2
  have hfst : (g.igcFiles.get ⟨_, hlt2⟩).1 = u := by
    have h1 := List.getElem_indexOf hlt
    rw [List.getElem_map] at h1
    exact h1
  have hmem : (u, (g.igcFiles.get ⟨_, hlt2⟩).2) ∈ g.igcFiles := by
    have e : g.igcFiles.get ⟨_, hlt2⟩ = (u, (g.igcFiles.get ⟨_, hlt2⟩).2) := Prod.ext hfst rfl
    exact Eq.mp (congrArg (fun x => x ∈ g.igcFiles) e) (List.get_mem _ _ _)
  rw [mapGet_of_mem _ _ hw.1 u _ hmem]
  exact hw.2.2 _ _ hget

/-- Along a run of successful submissions the registry stays numbered, its keys
are the distinct URLs in order of first submission, and every answer recorded for
a URL carries the position of that URL among the keys. -/
theorem submitRun_inv {L : Lib} {t0 : Int} {tr : List (String × Outcome)} {g : Globals L}
    (h : SubmitRun L t0 tr g) :
    WellNumbered g ∧ g.igcFiles.map Prod.fst = firstSeen (tr.map Prod.fst) ∧
    ∀ u out, (u, out) ∈ tr →
      out = idResponse L ("igc" ++ Itoa ((List.indexOf u (g.igcFiles.map Prod.fst) : Int) + 1)) := by
  induction h with
  | start =>
    exact ⟨wellNumbered_init L t0, by simp [Globals.init, firstSeen], by simp⟩
  | @submit tr0 g0 r data track _ hm hb hp ho ih =>
    obtain ⟨hw, hkeys, houts⟩ := ih
    by_cases hk : mapGet "" data "url" ∈ g0.igcFiles.map Prod.fst
    · rw [igcHandler_post_known g0 r data track hm hb hp ho hk]
      refine ⟨hw, ?_, ?_⟩
      · simp only [List.map_append, List.map_cons, List.map_nil]
        rw [firstSeen_append, if_pos (by rw [← hkeys]; exact hk)]
        exact hkeys
      · intro u out hmem
        rcases List.mem_append.1 hmem with h1 | h1
        · exact houts u out h1
        · simp only [List.mem_singleton, Prod.mk.injEq] at h1
          rw [h1.1, h1.2, mapGet_trackName hw _ hk]
    · rw [igcHandler_post_new g0 r data track hm hb hp ho hk]
      refine ⟨wellNumbered_append hw _ track hk, ?_, ?_⟩
      · simp only [List.map_append, List.map_cons, List.map_nil]
        rw [firstSeen_append, if_neg (by rw [← hkeys]; exact hk), hkeys]
      · intro u out hmem
        simp only [List.map_append, List.map_cons, List.map_nil]
        rcases List.mem_append.1 hmem with h1 | h1
        · have hu : u ∈ g0.igcFiles.map Prod.fst := by
            rw [hkeys, mem_firstSeen]
            exact List.mem_map_of_mem Prod.fst h1
          rw [List.indexOf_append_of_mem hu]
          exact houts u out h1
        · simp only [List.mem_singleton, Prod.mk.injEq] at h1
          rw [h1.1, h1.2, List.indexOf_append_of_not_mem hk]
          simp [hw.2.1]

theorem mapGet_mem {β : Type} (z : β) (m : List (String × β)) (u : String)
    (h : u ∈ m.map Prod.fst) : (u, mapGet z m u) ∈ m := by
  induction m with
  | nil => simp at h
  | cons e0 rest ih =>
    obtain ⟨k0, v0⟩ := e0
    by_cases hk : u = k0
    · subst hk
      simp [mapGet, List.lookup]
    · have hb : (u == k0) = false := by simp [hk]
      have h2 : u ∈ rest.map Prod.fst := by simpa [hk] using h
      have := ih h2
      simp only [mapGet] at this
      simp only [mapGet, List.lookup, hb]
      exact List.mem_cons_of_mem _ this

/-! ## What the patterns of the router match -/

theorem mem_rems_lit (n : Nat) (w : String) (s x : List Char)
    (h : x ∈ Re.rems n (Re.lit w) s) : s = w.toList ++ x := by
  simp only [Re.rems] at h
  split_ifs at h with hp
  · rw [List.mem_singleton] at h
    rw [h]
    exact (List.prefix_iff_eq_append.1 (List.isPrefixOf_iff_prefix.1 hp)).symm
  · simp at h

theorem mem_rems_cls (n : Nat) (ranges : List (Char × Char)) (s x : List Char)
    (h : x ∈ Re.rems n (Re.cls ranges) s) : ∃ c, s = c :: x ∧ inClass ranges c = true := by
  cases s with
  | nil => simp [Re.rems] at h
  | cons c t =>
    simp only [Re.rems] at h
    split_ifs at h with hc
    · rw [List.mem_singleton] at h
      exact ⟨c, by rw [h], hc⟩
    · simp at h

theorem mem_iterRems_cls (n : Nat) (ranges : List (Char × Char)) (k : Nat) :
    ∀ (ss : List (List Char)) (x : List Char),
      x ∈ iterRems (fun t => Re.rems n (Re.cls ranges) t) k ss →
      ∃ s ∈ ss, ∃ pre : List Char, s = pre ++ x ∧ pre.length = k ∧
        ∀ c ∈ pre, inClass ranges c = true := by
  induction k with
  | zero =>
    intro ss x h
    exact ⟨x, h, [], rfl, rfl, by simp⟩
  | succ k ih =>
    intro ss x h
    simp only [iterRems] at h
    obtain ⟨s1, hs1, pre, hpre, hlen, hall⟩ := ih _ x h
    obtain ⟨s, hs, hmem⟩ := List.mem_flatMap.1 hs1
    obtain ⟨c, hc, hin⟩ := mem_rems_cls n ranges s s1 hmem
    refine ⟨s, hs, c :: pre, ?_, by simp [hlen], ?_⟩
    · rw [hc, hpre]; rfl
    · intro d hd
      rcases List.mem_cons.1 hd with h1 | h1
      · rw [h1]; exact hin
      · exact hall d h1

theorem mem_rems_rep_cls (n : Nat) (ranges : List (Char × Char)) (lo hi : Nat)
    (s x : List Char) (h : x ∈ Re.rems n (Re.rep (Re.cls ranges) lo hi) s) :
    ∃ pre : List Char, s = pre ++ x ∧ lo ≤ pre.length ∧ pre.length ≤ hi ∧
      ∀ c ∈ pre, inClass ranges c = true := by
  simp only [Re.rems, repRems] at h
  obtain ⟨j, hj, hmem⟩ := List.mem_flatMap.1 h
  obtain ⟨s1, hs1, pre, hpre, hlen, hall⟩ := mem_iterRems_cls n ranges (lo + j) [s] x hmem
  rw [List.mem_singleton] at hs1
  have hj2 := List.mem_range.1 hj
  exact ⟨pre, by rw [← hs1, hpre], by omega, by omega, hall⟩

theorem mem_rems_seq (n : Nat) (a b : Re) (s x : List Char)
    (h : x ∈ Re.rems n (Re.seq a b) s) : ∃ t, t ∈ Re.rems n a s ∧ x ∈ Re.rems n b t := by
  simp only [Re.rems] at h
  exact List.mem_flatMap.1 h

theorem mem_rems_alt (n : Nat) (a b : Re) (s x : List Char)
    (h : x ∈ Re.rems n (Re.alt a b) s) : x ∈ Re.rems n a s ∨ x ∈ Re.rems n b s := by
  simp only [Re.rems] at h
  exact List.mem_append.1 h

/-- A pattern of the form `^body$` matches a text exactly when `body` can consume
all of it. -/
theorem matchString_anchored (body : Re) (s : String) :
    MatchString (Re.seq Re.bol (Re.seq body Re.eol)) s = true ↔
      [] ∈ Re.rems s.toList.length body s.toList := by
  simp only [MatchString, List.any_eq_true, Bool.not_eq_true', List.isEmpty_eq_false]
  constructor
  · rintro ⟨t, ht, hne⟩
    obtain ⟨x, hx⟩ := List.exists_mem_of_ne_nil _ hne
    obtain ⟨t1, h1, h2⟩ := mem_rems_seq _ _ _ _ _ hx
    simp only [Re.rems] at h1
    split_ifs at h1 with hl
    · rw [List.mem_singleton] at h1
      have hts : t = s.toList := List.IsSuffix.eq_of_length ((List.mem_tails _ _).1 ht) hl
      obtain ⟨t2, h3, h4⟩ := mem_rems_seq _ _ _ _ _ h2
      simp only [Re.rems] at h4
      split_ifs at h4 with he
      · rw [h1, hts, he] at h3; exact h3
      · simp at h4
    · simp at h1
  · intro h
    refine ⟨s.toList, (List.mem_tails _ _).2 (List.suffix_refl _), ?_⟩
    apply List.ne_nil_of_mem (a := [])
    simp only [Re.rems, if_true, List.flatMap_cons, List.flatMap_nil, List.append_nil]
    exact List.mem_flatMap.2 ⟨[], h, by simp⟩

theorem matchString_patApi (s : String) (h : MatchString patApi s = true) :
    s.toList = "/igcinfo/api".toList := by
  have h1 := (matchString_anchored _ s).1 h
  simpa using mem_rems_lit _ _ _ _ h1

theorem matchString_patIgc (s : String) (h : MatchString patIgc s = true) :
    s.toList = "/igcinfo/api/igc".toList := by
  have h1 := (matchString_anchored _ s).1 h
  simpa using mem_rems_lit _ _ _ _ h1

theorem matchString_patId (s : String) (h : MatchString patId s = true) :
    ∃ id : List Char, s.toList = "/igcinfo/api/igc/".toList ++ id ∧
      3 ≤ id.length ∧ id.length ≤ 10 ∧
      ∀ c ∈ id, inClass [('a', 'z'), ('A', 'Z'), ('0', '9')] c = true := by
  have h1 := (matchString_anchored _ s).1 h
  obtain ⟨t, ht, hx⟩ := mem_rems_seq _ _ _ _ _ h1
  have e1 := mem_rems_lit _ _ _ _ ht
  obtain ⟨id, e2, hlo, hhi, hall⟩ := mem_rems_rep_cls _ _ _ _ _ _ hx
  exact ⟨id, by rw [e1, e2, List.append_nil], hlo, hhi, hall⟩

theorem matchString_patField (s : String) (h : MatchString patField s = true) :
    ∃ (id field : List Char), s.toList = "/igcinfo/api/igc/".toList ++ (id ++ '/' :: field) ∧
      3 ≤ id.length ∧ id.length ≤ 10 ∧
      (∀ c ∈ id, inClass [('a', 'z'), ('A', 'Z'), ('0', '9')] c = true) ∧
      (field = "pilot".toList ∨ field = "glider".toList ∨ field = "glider_id".toList ∨
        field = "track_length".toList ∨ field = "H_date".toList) := by
  have h1 := (matchString_anchored _ s).1 h
  obtain ⟨t, ht, hx⟩ := mem_rems_seq _ _ _ _ _ h1
  have e1 := mem_rems_lit _ _ _ _ ht
  obtain ⟨t2, ht2, hx2⟩ := mem_rems_seq _ _ _ _ _ hx
  obtain ⟨id, e2, hlo, hhi, hall⟩ := mem_rems_rep_cls _ _ _ _ _ _ ht2
  obtain ⟨t3, ht3, hx3⟩ := mem_rems_seq _ _ _ _ _ hx2
  have e3 := mem_rems_lit _ _ _ _ ht3
  refine ⟨id, t3, by rw [e1, e2, e3]; rfl, hlo, hhi, hall, ?_⟩
  have lit_nil : ∀ w : String, [] ∈ Re.rems s.toList.length (Re.lit w) t3 → t3 = w.toList := by
    intro w hw
    simpa using mem_rems_lit _ _ _ _ hw
  simp only [fieldAlt] at hx3
  rcases mem_rems_alt _ _ _ _ _ hx3 with h5 | h5
  · left; exact lit_nil _ h5
  rcases mem_rems_alt _ _ _ _ _ h5 with h6 | h6
  · right; left; exact lit_nil _ h6
  rcases mem_rems_alt _ _ _ _ _ h6 with h7 | h7
  · right; right; left; exact lit_nil _ h7
  rcases mem_rems_alt _ _ _ _ _ h7 with h8 | h8
  · right; right; right; left; exact lit_nil _ h8
  · right; right; right; right; exact lit_nil _ h8

theorem slash_not_alnum : inClass [('a', 'z'), ('A', 'Z'), ('0', '9')] '/' = false := by
  decide

theorem not_patApi_patIgc (s : String) (h1 : MatchString patApi s = true)
    (h2 : MatchString patIgc s = true) : False := by
  have := (matchString_patApi s h1).symm.trans (matchString_patIgc s h2)
  exact absurd this (by decide)

theorem not_patApi_patId (s : String) (h1 : MatchString patApi s = true)
    (h2 : MatchString patId s = true) : False := by
  obtain ⟨id, e, _⟩ := matchString_patId s h2
  have := congrArg List.length ((matchString_patApi s h1).symm.trans e)
  simp at this

theorem not_patApi_patField (s : String) (h1 : MatchString patApi s = true)
    (h2 : MatchString patField s = true) : False := by
  obtain ⟨id, field, e, _⟩ := matchString_patField s h2
  have := congrArg List.length ((matchString_patApi s h1).symm.trans e)
  simp at this

theorem not_patIgc_patId (s : String) (h1 : MatchString patIgc s = true)
    (h2 : MatchString patId s = true) : False := by
  obtain ⟨id, e, _⟩ := matchString_patId s h2
  have := congrArg List.length ((matchString_patIgc s h1).symm.trans e)
  simp at this

theorem not_patIgc_patField (s : String) (h1 : MatchString patIgc s = true)
    (h2 : MatchString patField s = true) : False := by
  obtain ⟨id, field, e, _⟩ := matchString_patField s h2
  have := congrArg List.length ((matchString_patIgc s h1).symm.trans e)
  simp at this

theorem not_patId_patField (s : String) (h1 : MatchString patId s = true)
    (h2 : MatchString patField s = true) : False := by
  obtain ⟨id, e, _, _, hall⟩ := matchString_patId s h1
  obtain ⟨id2, field, e2, _⟩ := matchString_patField s h2
  have h3 : id = id2 ++ '/' :: field := List.append_cancel_left (e.symm.trans e2)
  have h4 := hall '/' (by rw [h3]; simp)
  rw [slash_not_alnum] at h4
  cases h4

/-- No text is matched by two different patterns of the router. -/
theorem patterns_exclusive (s : String) (p q : Re)
    (hp : p ∈ [patApi, patIgc, patId, patField]) (hq : q ∈ [patApi, patIgc, patId, patField])
    (mp : MatchString p s = true) (mq : MatchString q s = true) : p = q := by
  simp only [List.mem_cons, List.mem_singleton, List.not_mem_nil, or_false] at hp hq
  rcases hp with rfl | rfl | rfl | rfl <;> rcases hq with rfl | rfl | rfl | rfl
  · rfl
  · exact (not_patApi_patIgc s mp mq).elim
  · exact (not_patApi_patId s mp mq).elim
  · exact (not_patApi_patField s mp mq).elim
  · exact (not_patApi_patIgc s mq mp).elim
  · rfl
  · exact (not_patIgc_patId s mp mq).elim
  · exact (not_patIgc_patField s mp mq).elim
  · exact (not_patApi_patId s mq mp).elim
  · exact (not_patIgc_patId s mq mp).elim
  · rfl
  · exact (not_patId_patField s mp mq).elim
  · exact (not_patApi_patField s mq mp).elim
  · exact (not_patIgc_patField s mq mp).elim
  · exact (not_patId_patField s mq mp).elim
  · rfl

theorem regexMatches_none {L : Lib} (url : String) (m : List (Re × HandlerFunc L))
    (keys : List Re) (h : ∀ k ∈ keys, MatchString k url = false) :
    regexMatches url m keys = none := by
  induction keys with
  | nil => rfl
  | cons k rest ih =>
    have hk := h k (List.mem_cons_self _ _)
    simp only [regexMatches, hk, Bool.false_eq_true, if_false]
    exact ih (fun q hq => h q (List.mem_cons_of_mem _ hq))

theorem regexMatches_unique {L : Lib} (url : String) (m : List (Re × HandlerFunc L))
    (keys : List Re) (p : Re) (hp : p ∈ keys) (mp : MatchString p url = true)
    (hu : ∀ q ∈ keys, MatchString q url = true → q = p) :
    regexMatches url m keys = urlMapGet m p := by
  induction keys with
  | nil => simp at hp
  | cons k rest ih =>
    by_cases hk : MatchString k url = true
    · have := hu k (List.mem_cons_self _ _) hk
      subst this
      simp only [regexMatches, hk, if_true]
    · have hne : p ≠ k := by
        intro e; rw [e] at mp; exact hk mp
      have hr : p ∈ rest := by
        rcases List.mem_cons.1 hp with h1 | h1
        · exact absurd h1 hne
        · exact h1
      simp only [regexMatches, hk, if_false]
      exact ih hr (fun q hq => hu q (List.mem_cons_of_mem _ hq))

theorem urlMapGet_of_mem {L : Lib} (p : Re) (h : HandlerFunc L) (hm : (p, h) ∈ urlMap L) :
    urlMapGet (urlMap L) p = some h := by
  have e1 : patApi ≠ patIgc := by decide
  have e2 : patApi ≠ patId := by decide
  have e3 : patApi ≠ patField := by decide
  have e4 : patIgc ≠ patId := by decide
  have e5 : patIgc ≠ patField := by decide
  have e6 : patId ≠ patField := by decide
  simp only [urlMap, List.mem_cons, List.mem_singleton, List.not_mem_nil, or_false,
    Prod.mk.injEq] at hm
  rcases hm with ⟨rfl, rfl⟩ | ⟨rfl, rfl⟩ | ⟨rfl, rfl⟩ | ⟨rfl, rfl⟩ <;>
    simp [urlMap, urlMapGet, e1, e2, e3, e4, e5, e6]

/-! ## One request through the router -/

/-- A pattern of the router that matches the path decides the handler, whatever
the order in which the pattern map is iterated. -/
theorem regexMatches_selects {L : Lib} (path : String) (keys : List Re)
    (hk : keys.Perm ((urlMap L).map Prod.fst)) (p : Re) (h : HandlerFunc L)
    (hm : (p, h) ∈ urlMap L) (mp : MatchString p path = true) :
    regexMatches path (urlMap L) keys = some h := by
  have hp : p ∈ (urlMap L).map Prod.fst := List.mem_map_of_mem Prod.fst hm
  rw [regexMatches_unique path (urlMap L) keys p (hk.mem_iff.2 hp) mp
    (fun q hq mq => patterns_exclusive path q p (hk.mem_iff.1 hq) hp mq mp)]
  exact urlMapGet_of_mem p h hm

/-- The router changes the globals only when the path matches the collection
pattern, and then as `igcHandler` does. -/
theorem urlRouter_cases {L : Lib} (g : Globals L) (r : Request L) :
    (urlRouter L g r).1 = g ∨
    (MatchString patIgc r.Path = true ∧ (urlRouter L g r).1 = (igcHandler L g r).1) := by
  simp only [urlRouter]
  cases hm : regexMatches r.Path (urlMap L) r.rangeUrlMap with
  | none => left; rfl
  | some h =>
    obtain ⟨k, _, mk, hk⟩ := regexMatches_some _ _ _ _ hm
    simp only [urlMap, urlMapGet] at hk
    split_ifs at hk with h1 h2 h3 h4
    · cases hk; left; rfl
    · cases hk; right; rw [h2]; exact ⟨mk, rfl⟩
    · cases hk; left; exact idHandler_state g r
    · cases hk; left; exact fieldHandler_state g r

/-- `igcHandler` changes the globals only on a POST whose body decodes, whose
location the parser accepts and whose URL is not yet a key. -/
theorem igcHandler_cases {L : Lib} (g : Globals L) (r : Request L)
    (ho : r.rangeIgcFiles.Perm g.igcFiles) :
    (igcHandler L g r).1 = g ∨
    ∃ (data : List (String × String)) (track : Track L),
      r.Method = "POST" ∧ r.Body = some data ∧
      r.ParseLocation (mapGet "" data "url") = some track ∧
      mapGet "" data "url" ∉ g.igcFiles.map Prod.fst ∧
      (igcHandler L g r).1 = { g with
        igcFiles := g.igcFiles ++
          [(mapGet "" data "url", { trackName := "igc" ++ Itoa g.igcFileCount, track := track })]
        igcFileCount := g.igcFileCount + 1 } := by
  by_cases hm : r.Method = "POST"
  · cases hb : r.Body with
    | none => left; simp [igcHandler, hm, hb]
    | some data =>
      cases hp : r.ParseLocation (mapGet "" data "url") with
      | none => left; simp [igcHandler, hm, hb, hp]
      | some track =>
        by_cases hk : mapGet "" data "url" ∈ g.igcFiles.map Prod.fst
        · left; rw [igcHandler_post_known g r data track hm hb hp ho hk]
        · right
          exact ⟨data, track, hm, rfl, hp, hk,
            by rw [igcHandler_post_new g r data track hm hb hp ho hk]⟩
  · left
    by_cases hg : r.Method = "GET" <;> simp [igcHandler, hm, hg]

/-! ## Submissions -/

/-- C1 (idempotent submission): from any globals, two consecutive POST submissions
of a URL that the parser accepts are answered with the same id, and afterwards the
map has at most one entry more and the counter is at most one higher than before. -/
theorem idempotent_submission {L : Lib} (g : Globals L) (r1 r2 : Request L)
    (data1 data2 : List (String × String)) (t1 t2 : Track L) (u : String)
    (hm1 : r1.Method = "POST") (hb1 : r1.Body = some data1)
    (hu1 : mapGet "" data1 "url" = u) (hp1 : r1.ParseLocation u = some t1)
    (ho1 : r1.rangeIgcFiles.Perm g.igcFiles)
    (hm2 : r2.Method = "POST") (hb2 : r2.Body = some data2)
    (hu2 : mapGet "" data2 "url" = u) (hp2 : r2.ParseLocation u = some t2)
    (ho2 : r2.rangeIgcFiles.Perm (igcHandler L g r1).1.igcFiles) :
    ∃ id : String,
      (igcHandler L g r1).2 = idResponse L id ∧
      (igcHandler L (igcHandler L g r1).1 r2).2 = idResponse L id ∧
      g.igcFiles.length ≤ (igcHandler L (igcHandler L g r1).1 r2).1.igcFiles.length ∧
      (igcHandler L (igcHandler L g r1).1 r2).1.igcFiles.length ≤ g.igcFiles.length + 1 ∧
      g.igcFileCount ≤ (igcHandler L (igcHandler L g r1).1 r2).1.igcFileCount ∧
      (igcHandler L (igcHandler L g r1).1 r2).1.igcFileCount ≤ g.igcFileCount + 1 := by
  subst hu1
  by_cases hk : mapGet "" data1 "url" ∈ g.igcFiles.map Prod.fst
  · have e1 := igcHandler_post_known g r1 data1 t1 hm1 hb1 hp1 ho1 hk
    rw [e1] at ho2 ⊢
    have hp2' : r2.ParseLocation (mapGet "" data2 "url") = some t2 := by rw [hu2]; exact hp2
    have e2 := igcHandler_post_known g r2 data2 t2 hm2 hb2 hp2' ho2 (by rw [hu2]; exact hk)
    rw [e2, hu2]
    exact ⟨_, rfl, rfl, le_refl _, Nat.le_succ _, le_refl _, by simp⟩
  · have e1 := igcHandler_post_new g r1 data1 t1 hm1 hb1 hp1 ho1 hk
    rw [e1] at ho2 ⊢
    have hp2' : r2.ParseLocation (mapGet "" data2 "url") = some t2 := by rw [hu2]; exact hp2
    have hk2 : mapGet "" data2 "url" ∈ List.map Prod.fst
        (g.igcFiles ++ [(mapGet "" data1 "url",
          ({ trackName := "igc" ++ Itoa g.igcFileCount, track := t1 } : URLTrack L))]) := by
      rw [hu2]; simp
    have e2 := igcHandler_post_known _ r2 data2 t2 hm2 hb2 hp2' ho2 hk2
    rw [e2, hu2]
    refine ⟨"igc" ++ Itoa g.igcFileCount, rfl, ?_, ?_, ?_, ?_, ?_⟩
    · rw [mapGet_append_of_not_mem _ _ _ _ hk]
    · simp
    · simp
    · simp
    · simp

/-- C2, as the code has it: when the URL of a POST submission is already a key, the
map and the counter stay as they were whatever the parser answers; the answer is
the id stored under the key if the parser accepts the URL, and the handler panics
if the parser rejects it, because it parses before it looks the key up. -/
theorem resubmission_keeps_registry {L : Lib} (g : Globals L) (r : Request L)
    (data : List (String × String))
    (hm : r.Method = "POST") (hb : r.Body = some data)
    (ho : r.rangeIgcFiles.Perm g.igcFiles)
    (hk : mapGet "" data "url" ∈ g.igcFiles.map Prod.fst) :
    (igcHandler L g r).1 = g ∧
    (∀ track, r.ParseLocation (mapGet "" data "url") = some track →
      (igcHandler L g r).2 =
        idResponse L (mapGet (URLTrack.zero L) g.igcFiles (mapGet "" data "url")).trackName) ∧
    (r.ParseLocation (mapGet "" data "url") = none →
      (igcHandler L g r).2 = Outcome.panicked) := by
  refine ⟨?_, ?_, ?_⟩
  · cases hp : r.ParseLocation (mapGet "" data "url") with
    | none =>
      rw [igcHandler_post_fail g r hm (fun d hd => by rw [hb] at hd; cases hd; exact hp)]
    | some track => rw [igcHandler_post_known g r data track hm hb hp ho hk]
  · intro track hp
    rw [igcHandler_post_known g r data track hm hb hp ho hk]
  · intro hp
    rw [igcHandler_post_fail g r hm (fun d hd => by rw [hb] at hd; cases hd; exact hp)]

/-- C5 (parser failure): a POST submission whose URL the parser rejects ends in a
panic, and the map and the counter are what they were before the request. -/
theorem parser_failure_keeps_registry {L : Lib} (g : Globals L) (r : Request L)
    (data : List (String × String))
    (hm : r.Method = "POST") (hb : r.Body = some data)
    (hp : r.ParseLocation (mapGet "" data "url") = none) :
    igcHandler L g r = (g, Outcome.panicked) :=
  igcHandler_post_fail g r hm (fun d hd => by rw [hb] at hd; cases hd; exact hp)

/-- C3 (monotonic identifiers): in every run of successful submissions from the
initial globals, every answer to a submission of the URL that was the `n+1`-th to
be submitted for the first time carries the id `igc` followed by the decimal
numeral of `n+1`, however many submissions of known URLs lie in between. -/
theorem nth_distinct_url_id {L : Lib} {t0 : Int} {tr : List (String × Outcome)}
    {g : Globals L} (h : SubmitRun L t0 tr g) (n : Nat) (u : String)
    (hn : (firstSeen (tr.map Prod.fst))[n]? = some u) (out : Outcome)
    (hout : (u, out) ∈ tr) :
    out = idResponse L ("igc" ++ Itoa ((n : Int) + 1)) := by
  obtain ⟨_, hkeys, houts⟩ := submitRun_inv h
  have hlt : n < (firstSeen (tr.map Prod.fst)).length := by
    rcases Nat.lt_or_ge n (firstSeen (tr.map Prod.fst)).length with h1 | h1
    · exact h1
    · rw [List.getElem?_eq_none h1] at hn; cases hn
  have hu : (firstSeen (tr.map Prod.fst))[n] = u := by
    rw [List.getElem?_eq_getElem hlt] at hn
    exact Option.some.inj hn
  have hidx : List.indexOf u (firstSeen (tr.map Prod.fst)) = n := by
    rw [← hu]
    exact List.indexOf_getElem (firstSeen_nodup _) n hlt
  rw [houts u out hout, hkeys, hidx]

/-- C4 (identifier uniqueness): in every globals the service can reach, two entries
of `igcFiles` with the same `trackName` are stored under the same URL. -/
theorem trackName_injective {L : Lib} {g : Globals L} (hr : Reachable L g)
    (u1 u2 : String) (e1 e2 : URLTrack L)
    (h1 : (u1, e1) ∈ g.igcFiles) (h2 : (u2, e2) ∈ g.igcFiles)
    (hn : e1.trackName = e2.trackName) : u1 = u2 := by
  have := names_injective (reachable_wellNumbered hr) h1 h2 hn
  exact congrArg Prod.fst this

/-! ## Lookups by id -/

/-- C6, as the code has it: let a non-empty URL be submitted successfully in a
reachable state, and let the service go on to any later state.  Then the entry
stored under the URL is still the one of the submission, `getTrackIndex` on the
answered id returns the URL for every order of iteration,
`calculateTotalDistance` returns, and `idHandler` on a path whose last element is
the id answers 200 with the data of that entry. -/
theorem lookup_after_submission {L : Lib} {g g2 : Globals L} (hr : Reachable L g)
    (r q : Request L) (data : List (String × String)) (track : Track L)
    (hm : r.Method = "POST") (hb : r.Body = some data)
    (hp : r.ParseLocation (mapGet "" data "url") = some track)
    (ho : r.rangeIgcFiles.Perm g.igcFiles)
    (hne : mapGet "" data "url" ≠ "")
    (hlater : ReachableFrom L (igcHandler L g r).1 g2)
    (hq : q.rangeIgcFiles.Perm g2.igcFiles) :
    (igcHandler L g r).2 = idResponse L
      (mapGet (URLTrack.zero L) g2.igcFiles (mapGet "" data "url")).trackName ∧
    mapGet (URLTrack.zero L) g2.igcFiles (mapGet "" data "url") =
      mapGet (URLTrack.zero L) (igcHandler L g r).1.igcFiles (mapGet "" data "url") ∧
    getTrackIndex q.rangeIgcFiles
      (mapGet (URLTrack.zero L) g2.igcFiles (mapGet "" data "url")).trackName
        = mapGet "" data "url" ∧
    ∃ length,
      calculateTotalDistance
        (mapGet (URLTrack.zero L) g2.igcFiles (mapGet "" data "url")).track = some length ∧
      (Base q.Path =
          (mapGet (URLTrack.zero L) g2.igcFiles (mapGet "" data "url")).trackName →
        idHandler L g2 q =
          (g2, Outcome.response 200 (some "application/json")
            (L.Fprintf (detailText
              (mapGet (URLTrack.zero L) g2.igcFiles (mapGet "" data "url")).track
              length)))) := by
  have hw1 := wellNumbered_igcHandler (reachable_wellNumbered hr) r ho
  have hw := reachableFrom_wellNumbered hlater hw1
  have hans : (igcHandler L g r).2 = idResponse L
      (mapGet (URLTrack.zero L) (igcHandler L g r).1.igcFiles (mapGet "" data "url")).trackName ∧
      mapGet "" data "url" ∈ (igcHandler L g r).1.igcFiles.map Prod.fst := by
    by_cases hk : mapGet "" data "url" ∈ g.igcFiles.map Prod.fst
    · rw [igcHandler_post_known g r data track hm hb hp ho hk]
      exact ⟨rfl, hk⟩
    · rw [igcHandler_post_new g r data track hm hb hp ho hk]
      refine ⟨?_, by simp⟩
      simp only
      rw [mapGet_append_of_not_mem _ _ _ _ hk]
  have hmem1 := mapGet_mem (URLTrack.zero L) _ _ hans.2
  have hmem := reachableFrom_mem hlater _ hmem1
  have hsame := mapGet_of_mem (URLTrack.zero L) g2.igcFiles hw.1 _ _ hmem
  rw [hsame]
  have hgti := getTrackIndex_of_mem q.rangeIgcFiles
    (fun a ha b hb hn => names_injective hw (hq.mem_iff.1 ha) (hq.mem_iff.1 hb) hn)
    _ _ (hq.mem_iff.2 hmem)
  obtain ⟨length, hlen⟩ := calculateTotalDistance_returns
    (mapGet (URLTrack.zero L) (igcHandler L g r).1.igcFiles (mapGet "" data "url")).track
  refine ⟨hans.1, rfl, hgti, length, hlen, ?_⟩
  intro hbase
  simp only [idHandler, hbase, hgti, hne, ne_eq, not_false_eq_true, if_true, hsame, hlen]

/-- C7 (unknown id): if no entry of `igcFiles` is named `id`, then `idHandler` on a
path whose last element is `id`, and `fieldHandler` on a path whose second-to-last
segment is `id` (whatever the last segment), answer 404 with an empty body and
leave the globals alone. -/
theorem unknown_id_not_found {L : Lib} (g : Globals L) (r : Request L) (id : String)
    (ho : r.rangeIgcFiles.Perm g.igcFiles)
    (hid : ∀ e ∈ g.igcFiles, e.2.trackName ≠ id) :
    (Base r.Path = id → idHandler L g r = (g, Outcome.response 404 none "")) ∧
    (∀ field : String,
      index (Split r.Path) (((Split r.Path).length : Int) - 1) = some field →
      index (Split r.Path) (((Split r.Path).length : Int) - 2) = some id →
      fieldHandler L g r = (g, Outcome.response 404 none "")) := by
  have hg : getTrackIndex r.rangeIgcFiles id = "" :=
    getTrackIndex_of_unknown _ _ (fun e he => hid e (ho.mem_iff.1 he))
  constructor
  · intro hbase
    simp [idHandler, hbase, hg]
  · intro field h1 h2
    simp [fieldHandler, h1, h2, hg]

/-! ## Routing -/

/-- C8 (router): for every request path at most one of the four patterns matches;
the handler that `regexMatches` selects is the same for every order of iteration
over the pattern map; a path that matches a pattern is served by that handler of
the pattern; and a path that matches no pattern is answered 404 with an empty
body. -/
theorem router_exclusive {L : Lib} (g : Globals L) (r : Request L)
    (ho : r.rangeUrlMap.Perm ((urlMap L).map Prod.fst)) :
    (∀ p ∈ (urlMap L).map Prod.fst, ∀ q ∈ (urlMap L).map Prod.fst,
      MatchString p r.Path = true → MatchString q r.Path = true → p = q) ∧
    (∀ keys : List Re, keys.Perm ((urlMap L).map Prod.fst) →
      regexMatches r.Path (urlMap L) keys = regexMatches r.Path (urlMap L) r.rangeUrlMap) ∧
    (∀ (p : Re) (h : HandlerFunc L), (p, h) ∈ urlMap L → MatchString p r.Path = true →
      regexMatches r.Path (urlMap L) r.rangeUrlMap = some h ∧ urlRouter L g r = h g r) ∧
    ((∀ p ∈ (urlMap L).map Prod.fst, MatchString p r.Path = false) →
      urlRouter L g r = (g, Outcome.response 404 none "")) := by
  have hex : ∀ p ∈ (urlMap L).map Prod.fst, ∀ q ∈ (urlMap L).map Prod.fst,
      MatchString p r.Path = true → MatchString q r.Path = true → p = q :=
    fun p hp q hq mp mq => patterns_exclusive r.Path p q hp hq mp mq
  have hsel : ∀ keys : List Re, keys.Perm ((urlMap L).map Prod.fst) →
      ∀ p ∈ (urlMap L).map Prod.fst, MatchString p r.Path = true →
      regexMatches r.Path (urlMap L) keys = urlMapGet (urlMap L) p := by
    intro keys hk p hp mp
    exact regexMatches_unique _ _ keys p (hk.mem_iff.2 hp) mp
      (fun q hq mq => hex q (hk.mem_iff.1 hq) p hp mq mp)
  have hnone : ∀ keys : List Re, keys.Perm ((urlMap L).map Prod.fst) →
      (∀ p ∈ (urlMap L).map Prod.fst, MatchString p r.Path = false) →
      regexMatches r.Path (urlMap L) keys = none := by
    intro keys hk hall
    exact regexMatches_none _ _ keys (fun q hq => hall q (hk.mem_iff.1 hq))
  refine ⟨hex, ?_, ?_, ?_⟩
  · intro keys hk
    by_cases hany : ∃ p ∈ (urlMap L).map Prod.fst, MatchString p r.Path = true
    · obtain ⟨p, hp, mp⟩ := hany
      rw [hsel keys hk p hp mp, hsel _ ho p hp mp]
    · have hall : ∀ p ∈ (urlMap L).map Prod.fst, MatchString p r.Path = false := by
        intro p hp
        cases hm : MatchString p r.Path
        · rfl
        · exact absurd ⟨p, hp, hm⟩ hany
      rw [hnone keys hk hall, hnone _ ho hall]
  · intro p h hm mp
    have hp : p ∈ (urlMap L).map Prod.fst := List.mem_map_of_mem Prod.fst hm
    have e : regexMatches r.Path (urlMap L) r.rangeUrlMap = some h := by
      rw [hsel _ ho p hp mp, urlMapGet_of_mem p h hm]
    exact ⟨e, by simp only [urlRouter, e]⟩
  · intro hall
    simp only [urlRouter, hnone _ ho hall]

/-! ## Total distance -/

theorem index_append_length {α : Type} (pre : List α) (a : α) (rest : List α) :
    index (pre ++ a :: rest) (pre.length : Int) = some a := by
  have h : ¬ ((pre.length : Int) < 0) := by omega
  simp only [index, h, if_false, Int.toNat_ofNat]
  rw [List.getElem?_append_right (le_refl _)]
  simp

theorem distance_loop {L : Lib} (pts : List L.Point) :
    ∀ (ps pre : List L.Point) (x : L.Float64), pts = pre ++ ps →
      (List.range' pre.length (ps.length - 1)).foldl
        (fun (acc : Option L.Float64) (i : Nat) =>
          match acc, index pts (i : Int), index pts ((i : Int) + 1) with
          | some tot, some a, some b => some (L.add tot (L.Distance a b))
          | _, _, _ => none)
        (some x) = some ((pairDistances L ps).foldl L.add x) := by
  intro ps
  induction ps with
  | nil => intro pre x _; rfl
  | cons a rest ih =>
    intro pre x hp
    cases rest with
    | nil => rfl
    | cons b rest2 =>
      have e1 : index pts (pre.length : Int) = some a := by
        rw [hp]; exact index_append_length pre a (b :: rest2)
      have e2 : index pts ((pre.length : Int) + 1) = some b := by
        have := index_append_length (pre ++ [a]) b rest2
        rw [hp]
        simpa using this
      have hlen : (a :: b :: rest2).length - 1 = ((b :: rest2).length - 1) + 1 := by
        simp
      rw [hlen, List.range'_succ, List.foldl_cons]
      simp only [e1, e2]
      have := ih (pre ++ [a]) (L.add x (L.Distance a b)) (by rw [hp]; simp)
      simp only [List.length_append, List.length_singleton] at this
      rw [this]
      rfl

/-- `calculateTotalDistance` returns the formatted total distance. -/
theorem calculateTotalDistance_eq {L : Lib} (t : Track L) :
    calculateTotalDistance t = some (L.FormatFloat (totalDistance L t.Points)) := by
  have h := distance_loop t.Points t.Points [] L.zero rfl
  have e : ((t.Points.length : Int) - 1).toNat = t.Points.length - 1 := by omega
  simp only [calculateTotalDistance, e, List.range_eq_range']
  simp only [List.length_nil] at h
  rw [h]
  rfl

/-- C11 (total distance): `calculateTotalDistance` never indexes outside `Points`
and returns the formatted sum, in sequence order, of the distances between
consecutive points, starting from zero; the sum is zero for a track of no or one
point, and for three points it is the distance of the first pair, added to zero,
plus the distance of the second pair. -/
theorem total_distance {L : Lib} (t : Track L) :
    calculateTotalDistance t = some (L.FormatFloat (totalDistance L t.Points)) ∧
    (t.Points.length ≤ 1 → totalDistance L t.Points = L.zero) ∧
    (∀ A B C : L.Point, t.Points = [A, B, C] →
      totalDistance L t.Points = L.add (L.add L.zero (L.Distance A B)) (L.Distance B C)) ∧
    (∀ A B C : L.Point, t.Points = [A, B, C] →
      L.add L.zero (L.Distance A B) = L.Distance A B →
      totalDistance L t.Points = L.add (L.Distance A B) (L.Distance B C)) := by
  refine ⟨calculateTotalDistance_eq t, ?_, ?_, ?_⟩
  · intro h
    cases hp : t.Points with
    | nil => rfl
    | cons a rest =>
      cases rest with
      | nil => rfl
      | cons b rest2 => rw [hp] at h; simp at h
  · intro A B C h
    rw [h]; rfl
  · intro A B C h h0
    rw [h]
    show L.add (L.add L.zero (L.Distance A B)) (L.Distance B C) = _
    rw [h0]

/-! ## Listing -/

theorem intercalate_go_append (s x y : String) (as : List String) :
    String.intercalate.go (x ++ y) s as = x ++ String.intercalate.go y s as := by
  induction as generalizing y with
  | nil => rfl
  | cons a rest ih =>
    simp only [String.intercalate.go]
    rw [String.append_assoc, String.append_assoc, ih, String.append_assoc]

theorem intercalate_cons_cons (s a b : String) (bs : List String) :
    String.intercalate s (a :: b :: bs) = a ++ s ++ String.intercalate s (b :: bs) := by
  simp only [String.intercalate, String.intercalate.go]
  rw [intercalate_go_append]

theorem listLoop_eq {L : Lib} (igcFiles : List (String × URLTrack L)) :
    ∀ (rest : List (String × URLTrack L)) (y : Int) (response : String),
      y + (rest.length : Int) = (igcFiles.length : Int) →
      (∀ e ∈ rest, mapGet (URLTrack.zero L) igcFiles e.1 = e.2) →
      listLoop igcFiles rest y response =
        response ++ String.intercalate ","
          (rest.map (fun e => "\"" ++ e.2.trackName ++ "\"")) := by
  intro rest
  induction rest with
  | nil =>
    intro y response _ _
    simp [listLoop, String.intercalate]
  | cons e rest2 ih =>
    intro y response hy hget
    obtain ⟨j, v⟩ := e
    have hv : mapGet (URLTrack.zero L) igcFiles j = v := hget (j, v) (List.mem_cons_self _ _)
    cases rest2 with
    | nil =>
      have hlast : ¬ (y ≠ (igcFiles.length : Int) - 1) := by
        simp only [List.length_singleton] at hy
        omega
      simp only [listLoop, if_neg hlast, hv, List.map_cons, List.map_nil, String.intercalate,
        String.intercalate.go]
    | cons e2 rest3 =>
      have hmore : y ≠ (igcFiles.length : Int) - 1 := by
        simp only [List.length_cons] at hy
        omega
      rw [listLoop, if_pos hmore, hv]
      rw [ih (y + 1) _ (by simp only [List.length_cons] at hy ⊢; omega)
        (fun e he => hget e (List.mem_cons_of_mem _ he))]
      simp only [List.map_cons]
      rw [intercalate_cons_cons]
      apply String.ext
      simp [String.data_append]

/-- C13 (listing): on a GET, for every order in which the entries of a map are
iterated, `igcHandler` leaves the globals alone and hands to `fmt.Fprintf` the text
`[`, then the quoted `trackName` of every entry, each once, separated by single
commas, then `]`; for the empty registry the text is `[]`. -/
theorem listing_complete {L : Lib} (g : Globals L) (r : Request L)
    (hm : r.Method = "GET") (hnd : (g.igcFiles.map Prod.fst).Nodup)
    (ho : r.rangeIgcFiles.Perm g.igcFiles) :
    igcHandler L g r =
      (g, Outcome.response 200 (some "application/json")
        (L.Fprintf (listingText (r.rangeIgcFiles.map (fun e => e.2.trackName))))) ∧
    (r.rangeIgcFiles.map (fun e => e.2.trackName)).Perm
      (g.igcFiles.map (fun e => e.2.trackName)) ∧
    (g.igcFiles = [] →
      listingText (r.rangeIgcFiles.map (fun e => e.2.trackName)) = "[]") := by
  refine ⟨?_, ho.map _, ?_⟩
  · have hp : ¬ (r.Method = "POST") := by rw [hm]; decide
    have hloop := listLoop_eq g.igcFiles r.rangeIgcFiles 0 "["
      (by rw [ho.length_eq]; simp)
      (fun e he => mapGet_of_mem _ _ hnd e.1 e.2 (ho.mem_iff.1 he))
    simp only [igcHandler, if_neg hp, hm, if_true, hloop, listingText, List.map_map]
    rfl
  · intro he
    rw [he] at ho
    rw [List.perm_nil.1 ho]
    rfl

/-! ## Issued ids and the patterns -/

theorem digitChar_isDigit (d : Nat) (h : d < 10) : (Nat.digitChar d).isDigit = true := by
  interval_cases d <;> rfl

theorem toDigitsCore_isDigit (fuel : Nat) : ∀ (n : Nat) (ds : List Char),
    (∀ c ∈ ds, c.isDigit = true) → ∀ c ∈ Nat.toDigitsCore 10 fuel n ds, c.isDigit = true := by
  induction fuel with
  | zero => intro n ds h c hc; exact h c (by simpa [Nat.toDigitsCore] using hc)
  | succ f ih =>
    intro n ds h c hc
    have hd : ∀ c ∈ Nat.digitChar (n % 10) :: ds, c.isDigit = true := by
      intro c hc
      rcases List.mem_cons.1 hc with h1 | h1
      · rw [h1]; exact digitChar_isDigit _ (Nat.mod_lt _ (by decide))
      · exact h c h1
    simp only [Nat.toDigitsCore] at hc
    split_ifs at hc
    · exact hd c hc
    · exact ih _ _ hd c hc

/-- A decimal numeral consists of digits. -/
theorem repr_isDigit (n : Nat) : ∀ c ∈ (Nat.repr n).toList, c.isDigit = true := by
  intro c hc
  exact toDigitsCore_isDigit (n + 1) n [] (by simp) c
    (by simpa [Nat.repr, Nat.toDigits, List.asString] using hc)

/-- A decimal numeral is not empty. -/
theorem repr_ne_nil (n : Nat) : (Nat.repr n).toList ≠ [] := by
  have h : ∀ (fuel m : Nat) (ds : List Char), Nat.toDigitsCore 10 (fuel + 1) m ds ≠ [] := by
    intro fuel
    induction fuel with
    | zero =>
      intro m ds
      simp only [Nat.toDigitsCore]
      split_ifs <;> simp
    | succ f ih =>
      intro m ds
      rw [Nat.toDigitsCore]
      split_ifs
      · simp
      · exact ih _ _
  simpa [Nat.repr, Nat.toDigits, List.asString] using h n n []

theorem isDigit_alnum (c : Char) (h : c.isDigit = true) :
    inClass [('a', 'z'), ('A', 'Z'), ('0', '9')] c = true := by
  simp only [Char.isDigit, Bool.and_eq_true, decide_eq_true_eq] at h
  have h1 : '0' ≤ c := h.1
  have h2 : c ≤ '9' := h.2
  simp [inClass, h1, h2]

theorem rems_lit_mem (n : Nat) (w : String) (x : List Char) :
    x ∈ Re.rems n (Re.lit w) (w.toList ++ x) := by
  have hp : w.toList.isPrefixOf (w.toList ++ x) = true :=
    List.isPrefixOf_iff_prefix.2 (List.prefix_append _ _)
  simp only [Re.rems, hp, if_true, List.drop_left, List.mem_singleton]

theorem iterRems_cls_mem (n : Nat) (ranges : List (Char × Char)) (x : List Char) :
    ∀ (pre : List Char) (ss : List (List Char)),
      (∀ c ∈ pre, inClass ranges c = true) → pre ++ x ∈ ss →
      x ∈ iterRems (fun t => Re.rems n (Re.cls ranges) t) pre.length ss := by
  intro pre
  induction pre with
  | nil => intro ss _ h; exact h
  | cons c pre2 ih =>
    intro ss hall h
    simp only [List.length_cons, iterRems]
    apply ih _ (fun d hd => hall d (List.mem_cons_of_mem _ hd))
    refine List.mem_flatMap.2 ⟨c :: pre2 ++ x, h, ?_⟩
    simp [Re.rems, hall c (List.mem_cons_self _ _)]

theorem rems_rep_cls_mem (n : Nat) (ranges : List (Char × Char)) (lo hi : Nat)
    (pre x : List Char) (hall : ∀ c ∈ pre, inClass ranges c = true)
    (hlo : lo ≤ pre.length) (hhi : pre.length ≤ hi) :
    x ∈ Re.rems n (Re.rep (Re.cls ranges) lo hi) (pre ++ x) := by
  simp only [Re.rems, repRems]
  refine List.mem_flatMap.2 ⟨pre.length - lo, List.mem_range.2 (by omega), ?_⟩
  have e : lo + (pre.length - lo) = pre.length := by omega
  rw [e]
  exact iterRems_cls_mem n ranges x pre _ hall (List.mem_singleton.2 rfl)

theorem rems_seq_mem (n : Nat) (a b : Re) (s t x : List Char)
    (h1 : t ∈ Re.rems n a s) (h2 : x ∈ Re.rems n b t) : x ∈ Re.rems n (Re.seq a b) s := by
  simp only [Re.rems]
  exact List.mem_flatMap.2 ⟨t, h1, h2⟩

/-- A path made of the collection prefix and an id of 3 to 10 alphanumeric
characters matches the detail pattern. -/
theorem matchString_patId_of (id : String)
    (hall : ∀ c ∈ id.toList, inClass [('a', 'z'), ('A', 'Z'), ('0', '9')] c = true)
    (hlo : 3 ≤ id.length) (hhi : id.length ≤ 10) :
    MatchString patId ("/igcinfo/api/igc/" ++ id) = true := by
  rw [patId, matchString_anchored]
  have e : ("/igcinfo/api/igc/" ++ id).toList = "/igcinfo/api/igc/".toList ++ id.toList := by
    simp [String.toList, String.data_append]
  rw [e]
  refine rems_seq_mem _ _ _ _ _ _ (rems_lit_mem _ _ _) ?_
  have := rems_rep_cls_mem ("/igcinfo/api/igc/".toList ++ id.toList).length
    [('a', 'z'), ('A', 'Z'), ('0', '9')] 3 10 id.toList [] hall hlo hhi
  simpa [alnum] using this

/-- A path made of the collection prefix, an id of 3 to 10 alphanumeric characters,
a slash and one of the five field names matches the field pattern. -/
theorem matchString_patField_of (id field : String)
    (hall : ∀ c ∈ id.toList, inClass [('a', 'z'), ('A', 'Z'), ('0', '9')] c = true)
    (hlo : 3 ≤ id.length) (hhi : id.length ≤ 10)
    (hf : field ∈ ["pilot", "glider", "glider_id", "track_length", "H_date"]) :
    MatchString patField ("/igcinfo/api/igc/" ++ id ++ "/" ++ field) = true := by
  rw [patField, matchString_anchored]
  have e : ("/igcinfo/api/igc/" ++ id ++ "/" ++ field).toList =
      "/igcinfo/api/igc/".toList ++ (id.toList ++ ("/".toList ++ (field.toList ++ []))) := by
    simp [String.toList, String.data_append]
  rw [e]
  refine rems_seq_mem _ _ _ _ _ _ (rems_lit_mem _ _ _) ?_
  refine rems_seq_mem _ _ _ _ _ _ (rems_rep_cls_mem _ _ 3 10 id.toList _ hall hlo hhi) ?_
  refine rems_seq_mem _ _ _ _ _ _ (rems_lit_mem _ _ _) ?_
  simp only [List.mem_cons, List.mem_singleton, List.not_mem_nil, or_false] at hf
  simp only [fieldAlt, Re.rems, List.mem_append]
  rcases hf with rfl | rfl | rfl | rfl | rfl
  · left; simp [Re.rems]
  · right; left; simp [Re.rems]
  · right; right; left; simp [Re.rems]
  · right; right; right; left; simp [Re.rems]
  · right; right; right; right; simp [Re.rems]

theorem takeWhile_prefix (xs rest : List Char) (c : Char) (p : Char → Bool)
    (hx : ∀ x ∈ xs, p x = true) (hc : p c = false) :
    (xs ++ c :: rest).takeWhile p = xs := by
  induction xs with
  | nil => simp [hc]
  | cons x xs2 ih =>
    have h1 := hx x (List.mem_cons_self _ _)
    simp only [List.cons_append, List.takeWhile_cons, h1, if_true,
      ih (fun y hy => hx y (List.mem_cons_of_mem _ hy))]

/-- The last element of a detail path is its id. -/
theorem Base_detail (id : String) (hne : id.toList ≠ []) (hs : '/' ∉ id.toList) :
    Base ("/igcinfo/api/igc/" ++ id) = id := by
  have e : ("/igcinfo/api/igc/" ++ id).toList = "/igcinfo/api/igc/".toList ++ id.toList := by
    simp [String.toList, String.data_append]
  have hnz : ("/igcinfo/api/igc/" ++ id) ≠ "" := by
    intro h
    have := congrArg String.toList h
    rw [e] at this
    simp at this
  have hrev : ∀ x ∈ id.toList.reverse, (x != '/') = true := by
    intro x hx
    have : x ∈ id.toList := List.mem_reverse.1 hx
    simp only [bne_iff_ne, ne_eq]
    intro h; rw [h] at this; exact hs this
  have h1 : ("/igcinfo/api/igc/".toList ++ id.toList).rdropWhile (fun c => c == '/') =
      "/igcinfo/api/igc/".toList ++ id.toList := by
    rw [List.rdropWhile, List.reverse_append]
    cases hr : id.toList.reverse with
    | nil => exact absurd (List.reverse_eq_nil_iff.1 hr) hne
    | cons x xs =>
      have hx : (x == '/') = false := by
        have := hrev x (by rw [hr]; exact List.mem_cons_self _ _)
        simpa [bne_iff_ne] using this
      rw [List.cons_append, List.dropWhile_cons, hx]
      simp only [Bool.false_eq_true, if_false]
      rw [← List.cons_append, ← hr, ← List.reverse_append, List.reverse_reverse]
  have h2 : ("/igcinfo/api/igc/".toList ++ id.toList).rtakeWhile (fun c => c != '/') =
      id.toList := by
    rw [List.rtakeWhile, List.reverse_append]
    have : "/igcinfo/api/igc/".toList.reverse = '/' :: "/igcinfo/api/igc".toList.reverse := by
      decide
    rw [this, takeWhile_prefix _ _ '/' _ hrev (by decide), List.reverse_reverse]
  simp only [Base, if_neg hnz, e, h1, h2, if_neg hne]
  rfl

/-- The id minted at a counter value from 1 to 9999999 has 4 to 10 characters, all
alphanumeric, and is not empty. -/
theorem igcName_alnum (n : Int) (h1 : 1 ≤ n) (h2 : n ≤ 9999999) :
    4 ≤ ("igc" ++ Itoa n).length ∧ ("igc" ++ Itoa n).length ≤ 10 ∧
    (∀ c ∈ ("igc" ++ Itoa n).toList, inClass [('a', 'z'), ('A', 'Z'), ('0', '9')] c = true) := by
  obtain ⟨m, rfl⟩ := Int.eq_ofNat_of_zero_le (le_trans (by decide) h1)
  have hI : Itoa (m : Int) = Nat.repr m := rfl
  have hm : m < 10 ^ 7 := by omega
  have hlen7 : (Nat.repr m).length ≤ 7 := Nat.repr_length m 7 (by decide) hm
  have hlen1 : 1 ≤ (Nat.repr m).length := by
    have := repr_ne_nil m
    cases hr : (Nat.repr m).toList with
    | nil => exact absurd hr this
    | cons c rest =>
      have : (Nat.repr m).length = (c :: rest).length := by rw [← hr]; rfl
      rw [this]; simp
  have hlen : ("igc" ++ Nat.repr m).length = 3 + (Nat.repr m).length := by
    rw [String.length_append]; rfl
  have hall : ∀ c ∈ ("igc" ++ Nat.repr m).toList,
      inClass [('a', 'z'), ('A', 'Z'), ('0', '9')] c = true := by
    intro c hc
    have hc2 : c ∈ "igc".toList ++ (Nat.repr m).toList := by
      simpa [String.toList, String.data_append] using hc
    rcases List.mem_append.1 hc2 with h | h
    · have : c = 'i' ∨ c = 'g' ∨ c = 'c' := by simpa using h
      rcases this with rfl | rfl | rfl <;> decide
    · exact isDigit_alnum c (repr_isDigit m c h)
  rw [hI]
  exact ⟨by omega, by omega, hall⟩

/-- C18 (issued ids are routable): for every counter value from 1 to 9999999 the id
`igc` followed by its decimal numeral has 4 to 10 characters, all alphanumeric; the
collection path followed by the id matches the detail pattern, and the same path
followed by a slash and any of the five field names matches the field pattern; so
`urlRouter` hands a request for the detail path to `idHandler` and a request for a
field path to `fieldHandler`, whatever the order of the pattern map.  And when the
service, in a reachable state with that counter value, registers a new non-empty
URL through the router, it answers with this id, and a later detail request for
the id through the router is answered 200 with the data of the track. -/
theorem issued_ids_routable (n : Int) (h1 : 1 ≤ n) (h2 : n ≤ 9999999) :
    4 ≤ ("igc" ++ Itoa n).length ∧ ("igc" ++ Itoa n).length ≤ 10 ∧
    (∀ c ∈ ("igc" ++ Itoa n).toList, inClass [('a', 'z'), ('A', 'Z'), ('0', '9')] c = true) ∧
    MatchString patId ("/igcinfo/api/igc/" ++ ("igc" ++ Itoa n)) = true ∧
    (∀ field ∈ ["pilot", "glider", "glider_id", "track_length", "H_date"],
      MatchString patField ("/igcinfo/api/igc/" ++ ("igc" ++ Itoa n) ++ "/" ++ field) = true) ∧
    (∀ (L : Lib) (g : Globals L) (r : Request L),
      r.rangeUrlMap.Perm ((urlMap L).map Prod.fst) →
      r.Path = "/igcinfo/api/igc/" ++ ("igc" ++ Itoa n) →
      regexMatches r.Path (urlMap L) r.rangeUrlMap = some (idHandler L) ∧
        urlRouter L g r = idHandler L g r) ∧
    (∀ (L : Lib) (g : Globals L) (r : Request L),
      ∀ field ∈ ["pilot", "glider", "glider_id", "track_length", "H_date"],
      r.rangeUrlMap.Perm ((urlMap L).map Prod.fst) →
      r.Path = "/igcinfo/api/igc/" ++ ("igc" ++ Itoa n) ++ "/" ++ field →
      regexMatches r.Path (urlMap L) r.rangeUrlMap = some (fieldHandler L) ∧
        urlRouter L g r = fieldHandler L g r) ∧
    (∀ (L : Lib) (g : Globals L) (r q : Request L) (data : List (String × String))
      (track : Track L),
      Reachable L g → g.igcFileCount = n →
      r.rangeIgcFiles.Perm g.igcFiles → r.rangeUrlMap.Perm ((urlMap L).map Prod.fst) →
      r.Path = "/igcinfo/api/igc" → r.Method = "POST" → r.Body = some data →
      r.ParseLocation (mapGet "" data "url") = some track →
      mapGet "" data "url" ∉ g.igcFiles.map Prod.fst → mapGet "" data "url" ≠ "" →
      q.rangeIgcFiles.Perm (urlRouter L g r).1.igcFiles →
      q.rangeUrlMap.Perm ((urlMap L).map Prod.fst) →
      q.Path = "/igcinfo/api/igc/" ++ ("igc" ++ Itoa n) →
      (urlRouter L g r).2 = idResponse L ("igc" ++ Itoa n) ∧
        urlRouter L (urlRouter L g r).1 q =
          ((urlRouter L g r).1, Outcome.response 200 (some "application/json")
            (L.Fprintf (detailText track (L.FormatFloat (totalDistance L track.Points)))))) := by
  obtain ⟨hlo, hhi, hall⟩ := igcName_alnum n h1 h2
  have hmatch := matchString_patId_of ("igc" ++ Itoa n) hall (by omega) (by omega)
  have hfield : ∀ field ∈ ["pilot", "glider", "glider_id", "track_length", "H_date"],
      MatchString patField ("/igcinfo/api/igc/" ++ ("igc" ++ Itoa n) ++ "/" ++ field) = true :=
    fun field hf => matchString_patField_of _ field hall (by omega) (by omega) hf
  have hdetail : ∀ (L : Lib) (g : Globals L) (r : Request L),
      r.rangeUrlMap.Perm ((urlMap L).map Prod.fst) →
      r.Path = "/igcinfo/api/igc/" ++ ("igc" ++ Itoa n) →
      regexMatches r.Path (urlMap L) r.rangeUrlMap = some (idHandler L) ∧
        urlRouter L g r = idHandler L g r := by
    intro L g r hk hp
    have hsel := regexMatches_selects r.Path r.rangeUrlMap hk patId (idHandler L)
      (by simp [urlMap]) (by rw [hp]; exact hmatch)
    exact ⟨hsel, by simp only [urlRouter, hsel]⟩
  refine ⟨hlo, hhi, hall, hmatch, hfield, hdetail, ?_, ?_⟩
  · intro L g r field hf hk hp
    have hsel := regexMatches_selects r.Path r.rangeUrlMap hk patField (fieldHandler L)
      (by simp [urlMap]) (by rw [hp]; exact hfield field hf)
    exact ⟨hsel, by simp only [urlRouter, hsel]⟩
  · intro L g r q data track hr hc ho hk hp hm hb hpl hnew hne hqo hqk hqp
    have hsel := regexMatches_selects r.Path r.rangeUrlMap hk patIgc (igcHandler L)
      (by simp [urlMap]) (by rw [hp]; decide)
    have hrouter : urlRouter L g r = igcHandler L g r := by simp only [urlRouter, hsel]
    have hpost := igcHandler_post_new g r data track hm hb hpl ho hnew
    rw [hrouter, hpost, hc] at hqo ⊢
    refine ⟨rfl, ?_⟩
    have hw := wellNumbered_append (reachable_wellNumbered hr) (mapGet "" data "url") track hnew
    rw [hc] at hw
    rw [(hdetail L _ q hqk hqp).2]
    have hmem : (mapGet "" data "url",
        ({ trackName := "igc" ++ Itoa n, track := track } : URLTrack L)) ∈
        g.igcFiles ++ [(mapGet "" data "url",
          ({ trackName := "igc" ++ Itoa n, track := track } : URLTrack L))] := by simp
    have hgti := getTrackIndex_of_mem q.rangeIgcFiles
      (fun a ha b hb hn => names_injective hw (hqo.mem_iff.1 ha) (hqo.mem_iff.1 hb) hn)
      _ _ (hqo.mem_iff.2 hmem)
    have hslash : '/' ∉ ("igc" ++ Itoa n).toList := by
      intro hcn
      have := hall '/' hcn
      rw [slash_not_alnum] at this
      cases this
    have hnonempty : ("igc" ++ Itoa n).toList ≠ [] := by
      intro he
      have : ("igc" ++ Itoa n).length = 0 := by
        rw [String.length]; exact List.length_eq_zero.2 he
      omega
    have hbase : Base q.Path = "igc" ++ Itoa n := by
      rw [hqp]; exact Base_detail _ hnonempty hslash
    have hget := mapGet_append_of_not_mem (URLTrack.zero L) g.igcFiles (mapGet "" data "url")
      ({ trackName := "igc" ++ Itoa n, track := track } : URLTrack L) hnew
    simp only [idHandler, hbase]
    simp only at hgti
    rw [hgti]
    simp only [hne, ne_eq, not_false_eq_true, if_true, hget, calculateTotalDistance_eq]

/-! ## The segments of a field path -/

theorem splitOn_field_path (id field : List Char) (hid : '/' ∉ id) (hf : '/' ∉ field) :
    ("/igcinfo/api/igc/".toList ++ (id ++ '/' :: field)).splitOn '/' =
      [[], "igcinfo".toList, "api".toList, "igc".toList, id, field] := by
  have e : "/igcinfo/api/igc/".toList ++ (id ++ '/' :: field) =
      ['/'].intercalate [[], "igcinfo".toList, "api".toList, "igc".toList, id, field] := by
    simp [List.intercalate, List.intersperse]
  rw [e]
  apply List.splitOn_intercalate
  · intro l hl
    simp only [List.mem_cons, List.mem_singleton, List.not_mem_nil, or_false] at hl
    rcases hl with rfl | rfl | rfl | rfl | rfl | rfl
    · simp
    · decide
    · decide
    · decide
    · exact hid
    · exact hf
  · simp

/-- C16 (no unknown-field branch): a path that matches the field pattern splits on
`/` into the segments of the collection prefix followed by the id and the field;
so there are at least two segments, both index expressions of `fieldHandler` are
in range, the last segment is one of the five keys of its map, the second-to-last
is the id of 3 to 10 alphanumeric characters that the pattern matched, and the
lookup of the field in the map finds a value. -/
theorem field_path_segments (p : String) (h : MatchString patField p = true) :
    ∃ id field : String,
      p = "/igcinfo/api/igc/" ++ id ++ "/" ++ field ∧
      Split p = ["", "igcinfo", "api", "igc", id, field] ∧
      2 ≤ (Split p).length ∧
      index (Split p) (((Split p).length : Int) - 1) = some field ∧
      index (Split p) (((Split p).length : Int) - 2) = some id ∧
      3 ≤ id.length ∧ id.length ≤ 10 ∧
      (∀ c ∈ id.toList, inClass [('a', 'z'), ('A', 'Z'), ('0', '9')] c = true) ∧
      field ∈ ["pilot", "glider", "glider_id", "track_length", "H_date"] ∧
      ∀ a b c d e : String, ∃ v : String,
        List.lookup field [("pilot", a), ("glider", b), ("glider_id", c),
          ("track_length", d), ("H_date", e)] = some v := by
  obtain ⟨id, field, e, hlo, hhi, hall, hfield⟩ := matchString_patField p h
  have hid : '/' ∉ id := by
    intro hc
    have := hall '/' hc
    rw [slash_not_alnum] at this
    cases this
  have hfmem : String.mk field ∈ ["pilot", "glider", "glider_id", "track_length", "H_date"] := by
    rcases hfield with rfl | rfl | rfl | rfl | rfl <;> decide
  have hf : '/' ∉ field := by
    rcases hfield with rfl | rfl | rfl | rfl | rfl <;> decide
  have hsplit : Split p = ["", "igcinfo", "api", "igc", String.mk id, String.mk field] := by
    simp only [Split, e, splitOn_field_path id field hid hf]
    rfl
  refine ⟨String.mk id, String.mk field, ?_, hsplit, ?_, ?_, ?_, hlo, hhi, hall, hfmem, ?_⟩
  · apply String.ext
    have : p.data = "/igcinfo/api/igc/".toList ++ (id ++ '/' :: field) := e
    simp [String.data_append, this]
  · rw [hsplit]; simp
  · rw [hsplit]; rfl
  · rw [hsplit]; rfl
  · intro a b c d e2
    simp only [List.mem_cons, List.mem_singleton, List.not_mem_nil, or_false] at hfmem
    rcases hfmem with h1 | h1 | h1 | h1 | h1 <;> rw [h1]
    · exact ⟨a, rfl⟩
    · exact ⟨b, rfl⟩
    · exact ⟨c, rfl⟩
    · exact ⟨d, rfl⟩
    · exact ⟨e2, rfl⟩

/-! ## Field projection -/

theorem pilot_not_at_date (D rest : List Char) (hD : '"' ∉ D) :
    List.isPrefixOf ['p', 'i', 'l', 'o', 't', '"', ':', ' ', '"'] (D ++ '"' :: ',' :: rest)
      = false := by
  rcases D with _ | ⟨d1, _ | ⟨d2, _ | ⟨d3, _ | ⟨d4, _ | ⟨d5, _ | ⟨d6, D6⟩⟩⟩⟩⟩⟩ <;>
    simp_all [List.isPrefixOf]

theorem afterFirst_skip (M s : List Char) (c : Char) (h : c ≠ '"') :
    afterFirst ('"' :: M) (c :: s) = afterFirst ('"' :: M) s := by
  simp [afterFirst, List.isPrefixOf, Ne.symm h]

theorem afterFirst_skip_all (M : List Char) (D s : List Char) (hD : '"' ∉ D) :
    afterFirst ('"' :: M) (D ++ s) = afterFirst ('"' :: M) s := by
  induction D with
  | nil => rfl
  | cons d D2 ih =>
    simp only [List.mem_cons, not_or] at hD
    rw [List.cons_append, afterFirst_skip _ _ _ (Ne.symm hD.1), ih hD.2]

theorem afterFirst_pilot (D Pl tail : List Char) (hD : '"' ∉ D) :
    afterFirst ['"', 'p', 'i', 'l', 'o', 't', '"', ':', ' ', '"']
      ('{' :: '"' :: 'H' :: '_' :: 'd' :: 'a' :: 't' :: 'e' :: '"' :: ':' :: ' ' :: '"' ::
        (D ++ '"' :: ',' :: '"' :: 'p' :: 'i' :: 'l' :: 'o' :: 't' :: '"' :: ':' :: ' ' :: '"' ::
          (Pl ++ tail))) = some (Pl ++ tail) := by
  have h1 := pilot_not_at_date D
    ('"' :: 'p' :: 'i' :: 'l' :: 'o' :: 't' :: '"' :: ':' :: ' ' :: '"' :: (Pl ++ tail)) hD
  have h2 := afterFirst_skip_all ['p', 'i', 'l', 'o', 't', '"', ':', ' ', '"'] D
    ('"' :: ',' :: '"' :: 'p' :: 'i' :: 'l' :: 'o' :: 't' :: '"' :: ':' :: ' ' :: '"' ::
      (Pl ++ tail)) hD
  simp [afterFirst, List.isPrefixOf, h1, h2]

theorem takeWhile_until_quote (Pl rest : List Char) (hP : '"' ∉ Pl) :
    (Pl ++ '"' :: rest).takeWhile (fun c => c != '"') = Pl := by
  induction Pl with
  | nil => simp
  | cons c Pl2 ih =>
    simp only [List.mem_cons, not_or] at hP
    have hc : (c != '"') = true := by simp [Ne.symm hP.1]
    simp only [List.cons_append, List.takeWhile_cons, hc, if_true, ih hP.2]

/-- From a detail text whose date and pilot contain no double quote, `pilotValue`
reads the pilot back. -/
theorem pilotValue_detailText {L : Lib} (t : Track L) (length : String)
    (hD : '"' ∉ t.Date.toList) (hP : '"' ∉ t.Pilot.toList) :
    pilotValue (detailText t length) = some t.Pilot := by
  simp only [String.toList] at hD hP
  have h := afterFirst_pilot t.Date.data t.Pilot.data
    ('"' :: ',' :: (("\"glider\": " ++ "\"").data ++ t.GliderType.data ++ "\",".data ++
      (("\"glider_id\": " ++ "\"").data ++ t.GliderID.data ++ "\",".data) ++
      (("\"track_length\": " ++ "\"").data ++ length.data ++ "\"".data) ++ "\x7d".data)) hD
  have e : (detailText t length).toList =
      '{' :: '"' :: 'H' :: '_' :: 'd' :: 'a' :: 't' :: 'e' :: '"' :: ':' :: ' ' :: '"' ::
        (t.Date.data ++ '"' :: ',' :: '"' :: 'p' :: 'i' :: 'l' :: 'o' :: 't' :: '"' :: ':' ::
          ' ' :: '"' :: (t.Pilot.data ++
            ('"' :: ',' :: (("\"glider\": " ++ "\"").data ++ t.GliderType.data ++ "\",".data ++
              (("\"glider_id\": " ++ "\"").data ++ t.GliderID.data ++ "\",".data) ++
              (("\"track_length\": " ++ "\"").data ++ length.data ++ "\"".data) ++
              "\x7d".data)))) := by
    simp [detailText, String.toList, String.data_append]
  have em : "\"pilot\": \"".toList = ['"', 'p', 'i', 'l', 'o', 't', '"', ':', ' ', '"'] := rfl
  simp only [pilotValue]
  rw [e, em, h, Option.map_some', takeWhile_until_quote _ _ hP]

theorem getTrackIndex_unique {L : Lib} (l : List (String × URLTrack L)) (u : String)
    (e : URLTrack L) (h : (u, e) ∈ l)
    (hone : ∀ a ∈ l, a.2.trackName = e.trackName → a = (u, e)) :
    getTrackIndex l e.trackName = u := by
  induction l with
  | nil => simp at h
  | cons e0 rest ih =>
    obtain ⟨k0, v0⟩ := e0
    by_cases hn : v0.trackName = e.trackName
    · have := hone (k0, v0) (List.mem_cons_self _ _) hn
      cases this
      simp [getTrackIndex]
    · have hr : (u, e) ∈ rest := by
        rcases List.mem_cons.1 h with h1 | h1
        · cases h1; exact absurd rfl hn
        · exact h1
      simp only [getTrackIndex, if_neg hn]
      exact ih hr (fun a ha => hone a (List.mem_cons_of_mem _ ha))

theorem skipFlags_length (s : List Char) : (skipFlags s).length ≤ s.length := by
  induction s with
  | nil => simp [skipFlags]
  | cons c rest ih =>
    simp only [skipFlags]
    split_ifs
    · simp only [List.length_cons]; omega
    · exact le_refl _

theorem parsenumLoop_length : ∀ (s : List Char) (num : Nat) (isnum : Bool)
    (r : Bool × List Char), parsenumLoop num isnum s = some r → r.2.length ≤ s.length := by
  intro s
  induction s with
  | nil => intro num isnum r h; simp [parsenumLoop] at h; rw [← h]
  | cons c rest ih =>
    intro num isnum r h
    simp only [parsenumLoop] at h
    split_ifs at h with h1 h2
    · have := ih _ _ _ h
      simp only [List.length_cons]; omega
    · cases h; exact le_refl _

theorem parsenum_length (s : List Char) : (parsenum s).2.length ≤ s.length := by
  simp only [parsenum]
  cases h : parsenumLoop 0 false s with
  | none => simp
  | some r => exact parsenumLoop_length s 0 false r h

theorem splitAtBracket_length : ∀ (s : List Char) (p : List Char × List Char),
    splitAtBracket s = some p → p.2.length ≤ s.length := by
  intro s
  induction s with
  | nil => intro p h; simp [splitAtBracket] at h
  | cons c rest ih =>
    intro p h
    simp only [splitAtBracket] at h
    split_ifs at h
    · cases h; simp
    · cases hr : splitAtBracket rest with
      | none => rw [hr] at h; simp at h
      | some q =>
        rw [hr] at h
        simp only [Option.map_some', Option.some.injEq] at h
        rw [← h]
        have := ih q hr
        simp only [List.length_cons]; omega

theorem parseArgNumber_length (s : List Char) : (parseArgNumber s).1.length ≤ s.length := by
  simp only [parseArgNumber]
  split_ifs
  · exact le_refl _
  · cases h : splitAtBracket s with
    | none => exact le_refl _
    | some p => exact splitAtBracket_length s p h

theorem argNumber_length (s : List Char) : (argNumber s).1.length ≤ s.length := by
  unfold argNumber
  split
  · rename_i rest
    have := parseArgNumber_length rest
    simp only [List.length_cons]; omega
  · exact le_refl _

theorem widthStep_length (s : List Char) (b : Bool) :
    (widthStep s b).2.1.length ≤ s.length := by
  unfold widthStep
  split
  · simp
  · exact parsenum_length _

theorem precisionStep_length (s : List Char) (b : Bool) :
    (precisionStep s b).2.1.length ≤ s.length := by
  unfold precisionStep
  split
  · rename_i rest
    have h1 := argNumber_length rest
    split
    · rename_i rest2 heq
      rw [heq] at h1
      simp only [List.length_cons] at h1 ⊢
      omega
    · have h2 := parsenum_length (argNumber rest).1
      simp only [List.length_cons]
      omega
  · exact le_refl _

theorem verbStep_length (written : List Char) (bad : Bool) (s : List Char) :
    (verbStep written bad s).2.length ≤ s.length := by
  cases s with
  | nil => simp [verbStep]
  | cons verb rest =>
    simp only [verbStep]
    split_ifs <;> simp

/-- A verb leaves no more of the format than it was given. -/
theorem doVerb_length (s : List Char) : (doVerb s).2.length ≤ s.length := by
  have h1 := skipFlags_length s
  have h2 := argNumber_length (skipFlags s)
  have h3 := widthStep_length (argNumber (skipFlags s)).1 (argNumber (skipFlags s)).2.1
  have h4 := precisionStep_length
    (widthStep (argNumber (skipFlags s)).1 (argNumber (skipFlags s)).2.1).2.1
    (widthStep (argNumber (skipFlags s)).1 (argNumber (skipFlags s)).2.1).2.2.1
  simp only [doVerb]
  refine le_trans (verbStep_length _ _ _) ?_
  split_ifs
  · simp only
    omega
  · have h5 := argNumber_length
      (precisionStep (widthStep (argNumber (skipFlags s)).1 (argNumber (skipFlags s)).2.1).2.1
        (widthStep (argNumber (skipFlags s)).1 (argNumber (skipFlags s)).2.1).2.2.1).2.1
    omega

/-- The bound on the number of steps of `doPrintf` does not matter once it reaches
the length of the format: `doPrintf` runs to the end of the format. -/
theorem doPrintf_fuel : ∀ (n : Nat) (s : List Char) (f1 f2 : Nat),
    s.length ≤ n → s.length ≤ f1 → s.length ≤ f2 → doPrintf f1 s = doPrintf f2 s := by
  intro n
  induction n with
  | zero =>
    intro s f1 f2 hn _ _
    have : s = [] := List.length_eq_zero.1 (Nat.le_zero.1 hn)
    subst this
    cases f1 <;> cases f2 <;> rfl
  | succ n ih =>
    intro s f1 f2 hn h1 h2
    cases s with
    | nil => cases f1 <;> cases f2 <;> rfl
    | cons c rest =>
      cases f1 with
      | zero => simp at h1
      | succ g1 =>
        cases f2 with
        | zero => simp at h2
        | succ g2 =>
          simp only [List.length_cons] at hn h1 h2
          have hv := doVerb_length rest
          simp only [doPrintf]
          split_ifs
          · rw [ih (doVerb rest).2 g1 g2 (by omega) (by omega) (by omega)]
          · rw [ih rest g1 g2 (by omega) (by omega) (by omega)]

/-- A format without a percent sign is written as it is. -/
theorem doPrintf_no_percent : ∀ (s : List Char) (fuel : Nat), s.length ≤ fuel → '%' ∉ s →
    doPrintf fuel s = s := by
  intro s
  induction s with
  | nil => intro fuel _ _; cases fuel <;> rfl
  | cons c rest ih =>
    intro fuel hf hp
    simp only [List.mem_cons, not_or] at hp
    cases fuel with
    | zero => simp at hf
    | succ f =>
      simp only [doPrintf, if_neg (Ne.symm hp.1)]
      rw [ih f (by simpa using hf) hp.2]

/-- `fmt.Fprintf` without operands writes a text without a percent sign as it is. -/
theorem FprintfNoOperands_no_percent (s : String) (h : '%' ∉ s.toList) :
    FprintfNoOperands s = s := by
  simp only [FprintfNoOperands]
  rw [doPrintf_no_percent s.toList _ (le_refl _) h]
  rfl

/-- C12, as the code has it: in a registry (a map, so with distinct keys) let the
id name exactly one entry, stored under a non-empty URL, whose pilot and rendered
date contain no double quote, and let `fmt.Fprintf` write the detail text and the
pilot as they are (as it does for a text without a percent sign).  Then the detail
handler answers with the detail text, the field handler answers for `pilot` with
the pilot, and the pilot is what stands between the quotes after `"pilot":` in the
body of the detail handler. -/
theorem pilot_field_consistent {L : Lib} (g : Globals L)
    (hnd : (g.igcFiles.map Prod.fst).Nodup)
    (u : String) (e : URLTrack L) (hmem : (u, e) ∈ g.igcFiles)
    (hone : ∀ a ∈ g.igcFiles, a.2.trackName = e.trackName → a = (u, e))
    (hu : u ≠ "")
    (q1 q2 : Request L)
    (ho1 : q1.rangeIgcFiles.Perm g.igcFiles) (ho2 : q2.rangeIgcFiles.Perm g.igcFiles)
    (hb : Base q1.Path = e.trackName)
    (hf : index (Split q2.Path) (((Split q2.Path).length : Int) - 1) = some "pilot")
    (hi : index (Split q2.Path) (((Split q2.Path).length : Int) - 2) = some e.trackName)
    (hD : '"' ∉ e.track.Date.toList) (hP : '"' ∉ e.track.Pilot.toList)
    (hF1 : L.Fprintf (detailText e.track (L.FormatFloat (totalDistance L e.track.Points))) =
      detailText e.track (L.FormatFloat (totalDistance L e.track.Points)))
    (hF2 : L.Fprintf e.track.Pilot = e.track.Pilot) :
    idHandler L g q1 =
      (g, Outcome.response 200 (some "application/json")
        (detailText e.track (L.FormatFloat (totalDistance L e.track.Points)))) ∧
    fieldHandler L g q2 = (g, Outcome.response 200 none e.track.Pilot) ∧
    pilotValue (detailText e.track (L.FormatFloat (totalDistance L e.track.Points))) =
      some e.track.Pilot ∧
    pilotConsistent (idHandler L g q1).2 (fieldHandler L g q2).2 = true := by
  have hg1 := getTrackIndex_unique q1.rangeIgcFiles u e (ho1.mem_iff.2 hmem)
    (fun a ha => hone a (ho1.mem_iff.1 ha))
  have hg2 := getTrackIndex_unique q2.rangeIgcFiles u e (ho2.mem_iff.2 hmem)
    (fun a ha => hone a (ho2.mem_iff.1 ha))
  have hget := mapGet_of_mem (URLTrack.zero L) g.igcFiles hnd u e hmem
  have hlen := calculateTotalDistance_eq e.track
  have hpv := pilotValue_detailText e.track (L.FormatFloat (totalDistance L e.track.Points))
    hD hP
  have h1 : idHandler L g q1 =
      (g, Outcome.response 200 (some "application/json")
        (detailText e.track (L.FormatFloat (totalDistance L e.track.Points)))) := by
    simp only [idHandler, hb, hg1, hu, ne_eq, not_false_eq_true, if_true, hget, hlen, hF1]
  have h2 : fieldHandler L g q2 = (g, Outcome.response 200 none e.track.Pilot) := by
    simp only [fieldHandler, hf, hi, hg2, hu, ne_eq, not_false_eq_true, if_true, hget, hlen]
    have : mapGet "" [("pilot", e.track.Pilot), ("glider", e.track.GliderType),
        ("glider_id", e.track.GliderID),
        ("track_length", L.FormatFloat (totalDistance L e.track.Points)),
        ("H_date", e.track.Date)] "pilot" = e.track.Pilot := rfl
    rw [this, hF2]
  refine ⟨h1, h2, hpv, ?_⟩
  rw [h1, h2]
  simp only [pilotConsistent, Outcome.body, hpv, beq_self_eq_true]

/-! ## Stability of the entries -/

/-- C14 (entries are stable): whatever request `urlRouter` serves, every entry of
`igcFiles` is still there afterwards and every key still maps to the same record.
The globals change only when the request is a POST on the collection path whose
body decodes, whose location the parser accepts and whose URL is not yet a key;
the change is one appended entry and a counter that is one higher; and every such
request does make that change. -/
theorem entries_stable {L : Lib} (g : Globals L) (r : Request L)
    (ho : r.rangeIgcFiles.Perm g.igcFiles)
    (hk : r.rangeUrlMap.Perm ((urlMap L).map Prod.fst)) :
    (∀ e ∈ g.igcFiles, e ∈ (urlRouter L g r).1.igcFiles) ∧
    (∀ u ∈ g.igcFiles.map Prod.fst,
      mapGet (URLTrack.zero L) (urlRouter L g r).1.igcFiles u =
        mapGet (URLTrack.zero L) g.igcFiles u) ∧
    ((urlRouter L g r).1 = g ∨
      ∃ (data : List (String × String)) (track : Track L),
        MatchString patIgc r.Path = true ∧ r.Method = "POST" ∧ r.Body = some data ∧
        r.ParseLocation (mapGet "" data "url") = some track ∧
        mapGet "" data "url" ∉ g.igcFiles.map Prod.fst ∧
        (urlRouter L g r).1 = { g with
          igcFiles := g.igcFiles ++
            [(mapGet "" data "url",
              { trackName := "igc" ++ Itoa g.igcFileCount, track := track })]
          igcFileCount := g.igcFileCount + 1 }) ∧
    (∀ (data : List (String × String)) (track : Track L),
      MatchString patIgc r.Path = true → r.Method = "POST" → r.Body = some data →
      r.ParseLocation (mapGet "" data "url") = some track →
      mapGet "" data "url" ∉ g.igcFiles.map Prod.fst →
      (urlRouter L g r).1 = { g with
        igcFiles := g.igcFiles ++
          [(mapGet "" data "url",
            { trackName := "igc" ++ Itoa g.igcFileCount, track := track })]
        igcFileCount := g.igcFileCount + 1 }) := by
  have hcases : (urlRouter L g r).1 = g ∨
      ∃ (data : List (String × String)) (track : Track L),
        MatchString patIgc r.Path = true ∧ r.Method = "POST" ∧ r.Body = some data ∧
        r.ParseLocation (mapGet "" data "url") = some track ∧
        mapGet "" data "url" ∉ g.igcFiles.map Prod.fst ∧
        (urlRouter L g r).1 = { g with
          igcFiles := g.igcFiles ++
            [(mapGet "" data "url",
              { trackName := "igc" ++ Itoa g.igcFileCount, track := track })]
          igcFileCount := g.igcFileCount + 1 } := by
    rcases urlRouter_cases g r with h | ⟨mp, h⟩
    · left; exact h
    · rcases igcHandler_cases g r ho with h2 | ⟨data, track, hm, hb, hp, hn, h2⟩
      · left; rw [h, h2]
      · right; exact ⟨data, track, mp, hm, hb, hp, hn, by rw [h, h2]⟩
  refine ⟨?_, ?_, hcases, ?_⟩
  · intro e he
    rcases hcases with h | ⟨data, track, _, _, _, _, _, h⟩
    · rw [h]; exact he
    · rw [h]; exact List.mem_append_left _ he
  · intro u hu
    rcases hcases with h | ⟨data, track, _, _, _, _, _, h⟩
    · rw [h]
    · rw [h]; exact mapGet_append_of_mem _ _ _ _ hu
  · intro data track mp hm hb hp hn
    have hsel := regexMatches_selects r.Path r.rangeUrlMap hk patIgc (igcHandler L)
      (by simp [urlMap]) mp
    simp only [urlRouter, hsel]
    rw [igcHandler_post_new g r data track hm hb hp ho hn]

/-! ## Duration strings -/

theorem append_token (result : String) (c : Int) (letter : String) :
    (if c ≠ 0 then result ++ (Itoa c ++ letter) else result) =
      result ++ durationToken c letter := by
  by_cases h : c = 0
  · simp [durationToken, h]
  · simp [durationToken, h]

theorem tdiv_step (a c : Int) (ha : 0 ≤ a) (hc : 0 < c) :
    a.tdiv c = a / c ∧ a - a / c * c = a % c ∧ 0 ≤ a % c := by
  refine ⟨Int.tdiv_eq_ediv ha (le_of_lt hc), ?_, Int.emod_nonneg a (ne_of_gt hc)⟩
  rw [Int.emod_def, mul_comm]

/-- C9 (shape of the duration string): for every non-negative number of seconds
`parseTimeDifference` returns `P`, then the tokens of years, months, weeks and days
in that order, each present exactly when its component is not zero, then, exactly
when hours, minutes and seconds are not all zero, `T` followed by the tokens of
hours, minutes and seconds in that order, each present exactly when its component
is not zero. -/
theorem duration_shape (n : Int) (hn : 0 ≤ n) :
    parseTimeDifference n =
      durationShape (n / 31557600) (n % 31557600 / 2629800)
        (n % 31557600 % 2629800 / 604800)
        (n % 31557600 % 2629800 % 604800 / 86400)
        (n % 31557600 % 2629800 % 604800 % 86400 / 3600)
        (n % 31557600 % 2629800 % 604800 % 86400 % 3600 / 60)
        (n % 31557600 % 2629800 % 604800 % 86400 % 3600 % 60) := by
  obtain ⟨a1, b1, c1⟩ := tdiv_step n 31557600 hn (by decide)
  obtain ⟨a2, b2, c2⟩ := tdiv_step _ 2629800 c1 (by decide)
  obtain ⟨a3, b3, c3⟩ := tdiv_step _ 604800 c2 (by decide)
  obtain ⟨a4, b4, c4⟩ := tdiv_step _ 86400 c3 (by decide)
  obtain ⟨a5, b5, c5⟩ := tdiv_step _ 3600 c4 (by decide)
  obtain ⟨a6, b6, c6⟩ := tdiv_step _ 60 c5 (by decide)
  simp only [parseTimeDifference, a1, b1, a2, b2, a3, b3, a4, b4, a5, b5, a6, b6, append_token,
    durationShape]
  split_ifs with h1 h2 h2
  · exact absurd h2 (by tauto)
  · simp only [String.append_assoc]
  · rw [String.append_empty]
  · exact absurd h2 (by tauto)

/-- C10 (boundary cases of the duration string): 0 seconds give the marker alone,
3661 seconds give an hour, a minute and a second token and no date token, and
31557600 seconds give one year token and nothing else. -/
theorem duration_boundary_cases :
    parseTimeDifference 0 = "P" ∧ parseTimeDifference 3661 = "PT1H1M1S" ∧
      parseTimeDifference 31557600 = "P1Y" := by
  decide

/-- The string that `parseTimeDifference` returns is built from the components
of `timeComponents`, for every argument. -/
theorem parseTimeDifference_components (n : Int) :
    parseTimeDifference n =
      durationShape (timeComponents n).years (timeComponents n).months
        (timeComponents n).weeks (timeComponents n).days (timeComponents n).hours
        (timeComponents n).minutes (timeComponents n).seconds := by
  simp only [parseTimeDifference, timeComponents, append_token, durationShape]
  split_ifs with h1 h2 h2
  · exact absurd h2 (by tauto)
  · simp only [String.append_assoc]
  · rw [String.append_empty]
  · exact absurd h2 (by tauto)

/-- For a non-negative argument the components add up to it when weighted with the
divisors, and each lies in its range. -/
theorem timeComponents_sum_bounds (n : Int) (hn : 0 ≤ n) :
    (timeComponents n).years * 31557600 + (timeComponents n).months * 2629800 +
      (timeComponents n).weeks * 604800 + (timeComponents n).days * 86400 +
      (timeComponents n).hours * 3600 + (timeComponents n).minutes * 60 +
      (timeComponents n).seconds = n ∧
    0 ≤ (timeComponents n).years ∧
    (0 ≤ (timeComponents n).months ∧ (timeComponents n).months ≤ 11) ∧
    (0 ≤ (timeComponents n).weeks ∧ (timeComponents n).weeks ≤ 4) ∧
    (0 ≤ (timeComponents n).days ∧ (timeComponents n).days ≤ 6) ∧
    (0 ≤ (timeComponents n).hours ∧ (timeComponents n).hours ≤ 23) ∧
    (0 ≤ (timeComponents n).minutes ∧ (timeComponents n).minutes ≤ 59) ∧
    (0 ≤ (timeComponents n).seconds ∧ (timeComponents n).seconds ≤ 59) := by
  obtain ⟨a1, b1, c1⟩ := tdiv_step n 31557600 hn (by decide)
  obtain ⟨a2, b2, c2⟩ := tdiv_step _ 2629800 c1 (by decide)
  obtain ⟨a3, b3, c3⟩ := tdiv_step _ 604800 c2 (by decide)
  obtain ⟨a4, b4, c4⟩ := tdiv_step _ 86400 c3 (by decide)
  obtain ⟨a5, b5, c5⟩ := tdiv_step _ 3600 c4 (by decide)
  obtain ⟨a6, b6, c6⟩ := tdiv_step _ 60 c5 (by decide)
  simp only [timeComponents, a1, b1, a2, b2, a3, b3, a4, b4, a5, b5, a6, b6]
  omega

/-- C15 (duration decomposition): for every non-negative number of seconds the
components that `parseTimeDifference` computes, from which it builds its string,
add up to the argument when weighted with the divisors, none is negative, and
months are at most 11, weeks at most 4, days at most 6, hours at most 23, minutes
and seconds at most 59. -/
theorem duration_decomposition (n : Int) (hn : 0 ≤ n) :
    parseTimeDifference n =
      durationShape (timeComponents n).years (timeComponents n).months
        (timeComponents n).weeks (timeComponents n).days (timeComponents n).hours
        (timeComponents n).minutes (timeComponents n).seconds ∧
    (timeComponents n).years * 31557600 + (timeComponents n).months * 2629800 +
      (timeComponents n).weeks * 604800 + (timeComponents n).days * 86400 +
      (timeComponents n).hours * 3600 + (timeComponents n).minutes * 60 +
      (timeComponents n).seconds = n ∧
    0 ≤ (timeComponents n).years ∧
    (0 ≤ (timeComponents n).months ∧ (timeComponents n).months ≤ 11) ∧
    (0 ≤ (timeComponents n).weeks ∧ (timeComponents n).weeks ≤ 4) ∧
    (0 ≤ (timeComponents n).days ∧ (timeComponents n).days ≤ 6) ∧
    (0 ≤ (timeComponents n).hours ∧ (timeComponents n).hours ≤ 23) ∧
    (0 ≤ (timeComponents n).minutes ∧ (timeComponents n).minutes ≤ 59) ∧
    (0 ≤ (timeComponents n).seconds ∧ (timeComponents n).seconds ≤ 59) :=
  ⟨parseTimeDifference_components n, timeComponents_sum_bounds n hn⟩

/-! ## A duration string determines the duration -/

theorem digitsValue_repr (n : Nat) : digitsValue (Nat.repr n).toList = n := by
  have h := digitsValue_toDigitsCore (n + 1) n (Nat.lt_succ_self n)
  simpa [Nat.repr, Nat.toDigits, List.asString] using h

theorem dropWhile_digits (ds : List Char) (l : Char) (rest : List Char)
    (hds : ∀ c ∈ ds, c.isDigit = true) (hl : l.isDigit = false) :
    (ds ++ l :: rest).dropWhile Char.isDigit = l :: rest ∧
    (ds ++ l :: rest).takeWhile Char.isDigit = ds := by
  induction ds with
  | nil => simp [hl]
  | cons d ds2 ih =>
    have hd := hds d (List.mem_cons_self _ _)
    have := ih (fun c hc => hds c (List.mem_cons_of_mem _ hc))
    simp [List.dropWhile_cons, List.takeWhile_cons, hd, this.1, this.2]

theorem fnd_tokL (c : Nat) (l : Char) (rest : List Char) (hl : l.isDigit = false) :
    fnd (tokL c l ++ rest) = if c = 0 then fnd rest else some l := by
  by_cases h : c = 0
  · simp [tokL, h]
  · simp only [tokL, h, if_false, fnd, List.append_assoc, List.singleton_append]
    rw [(dropWhile_digits _ l rest (repr_isDigit c) hl).1]
    rfl

theorem readToken_tokL (c : Nat) (l : Char) (rest : List Char) (hl : l.isDigit = false)
    (hr : fnd rest ≠ some l) : readToken l (tokL c l ++ rest) = (c, rest) := by
  by_cases h : c = 0
  · subst h
    simp only [tokL, if_true, List.nil_append, readToken]
    cases hd : rest.dropWhile Char.isDigit with
    | nil => rfl
    | cons x xs =>
      have : x ≠ l := by
        intro e
        apply hr
        simp [fnd, hd, e]
      simp [this]
  · simp only [tokL, h, if_false, List.append_assoc, List.singleton_append, readToken]
    obtain ⟨h1, h2⟩ := dropWhile_digits _ l rest (repr_isDigit c) hl
    rw [h1, h2]
    simp only [if_true, digitsValue_repr]

theorem fnd_tokL_ne (c : Nat) (l x : Char) (rest : List Char) (hl : l.isDigit = false)
    (hx : l ≠ x) (hr : fnd rest ≠ some x) : fnd (tokL c l ++ rest) ≠ some x := by
  rw [fnd_tokL c l rest hl]
  split_ifs
  · exact hr
  · intro e; exact hx (Option.some.inj e)

theorem fnd_timeL_ne (h mi s : Nat) (x : Char) (hx : 'T' ≠ x) :
    fnd (timeL h mi s) ≠ some x := by
  simp only [timeL]
  split_ifs
  · simp [fnd]
  · intro e
    simp [fnd, List.dropWhile_cons] at e
    exact hx (by simpa using e)

/-- Reading the characters of a duration string gives its components back. -/
theorem readDuration_shape (y mo w d h mi s : Nat) :
    readDuration ('P' :: (tokL y 'Y' ++ (tokL mo 'M' ++ (tokL w 'W' ++ (tokL d 'D' ++
      timeL h mi s))))) = [y, mo, w, d, h, mi, s] := by
  have nY : ('Y' : Char).isDigit = false := by decide
  have nM : ('M' : Char).isDigit = false := by decide
  have nW : ('W' : Char).isDigit = false := by decide
  have nD : ('D' : Char).isDigit = false := by decide
  have nH : ('H' : Char).isDigit = false := by decide
  have nS : ('S' : Char).isDigit = false := by decide
  have e1 := readToken_tokL y 'Y'
    (tokL mo 'M' ++ (tokL w 'W' ++ (tokL d 'D' ++ timeL h mi s))) nY
    (fnd_tokL_ne _ _ _ _ nM (by decide) (fnd_tokL_ne _ _ _ _ nW (by decide)
      (fnd_tokL_ne _ _ _ _ nD (by decide) (fnd_timeL_ne _ _ _ _ (by decide)))))
  have e2 := readToken_tokL mo 'M' (tokL w 'W' ++ (tokL d 'D' ++ timeL h mi s)) nM
    (fnd_tokL_ne _ _ _ _ nW (by decide)
      (fnd_tokL_ne _ _ _ _ nD (by decide) (fnd_timeL_ne _ _ _ _ (by decide))))
  have e3 := readToken_tokL w 'W' (tokL d 'D' ++ timeL h mi s) nW
    (fnd_tokL_ne _ _ _ _ nD (by decide) (fnd_timeL_ne _ _ _ _ (by decide)))
  have e4 := readToken_tokL d 'D' (timeL h mi s) nD (fnd_timeL_ne _ _ _ _ (by decide))
  have f0 : fnd [] ≠ some 'S' := by simp [fnd]
  have e5 := readToken_tokL h 'H' (tokL mi 'M' ++ (tokL s 'S' ++ [])) nH
    (fnd_tokL_ne _ _ _ _ nM (by decide) (fnd_tokL_ne _ _ _ _ nS (by decide) (by simp [fnd])))
  have e6 := readToken_tokL mi 'M' (tokL s 'S' ++ []) nM
    (fnd_tokL_ne _ _ _ _ nS (by decide) (by simp [fnd]))
  have e7 := readToken_tokL s 'S' [] nS f0
  simp only [readDuration, e1, e2, e3, e4]
  by_cases hz : h = 0 ∧ mi = 0 ∧ s = 0
  · obtain ⟨rfl, rfl, rfl⟩ := hz
    simp [timeL]
  · simp only [timeL, hz, if_false, e5, e6, e7]

theorem durationToken_toList (c : Nat) (l : Char) :
    (durationToken (c : Int) (String.singleton l)).toList = tokL c l := by
  by_cases h : c = 0
  · simp [durationToken, tokL, h]
  · have h2 : ¬ ((c : Int) = 0) := by omega
    have hI : Itoa (c : Int) = Nat.repr c := rfl
    simp only [durationToken, tokL, h, h2, if_false, hI, String.toList, String.data_append]
    rfl

theorem durationShape_toList (y mo w d h mi s : Nat) :
    (durationShape y mo w d h mi s).toList =
      'P' :: (tokL y 'Y' ++ (tokL mo 'M' ++ (tokL w 'W' ++ (tokL d 'D' ++ timeL h mi s)))) := by
  have tY := durationToken_toList y 'Y'
  have tM := durationToken_toList mo 'M'
  have tW := durationToken_toList w 'W'
  have tD := durationToken_toList d 'D'
  have tH := durationToken_toList h 'H'
  have tMi := durationToken_toList mi 'M'
  have tS := durationToken_toList s 'S'
  simp only [String.toList] at tY tM tW tD tH tMi tS
  have eY : ("Y" : String) = String.singleton 'Y' := rfl
  have eM : ("M" : String) = String.singleton 'M' := rfl
  have eW : ("W" : String) = String.singleton 'W' := rfl
  have eD : ("D" : String) = String.singleton 'D' := rfl
  have eH : ("H" : String) = String.singleton 'H' := rfl
  have eS : ("S" : String) = String.singleton 'S' := rfl
  by_cases hz : h = 0 ∧ mi = 0 ∧ s = 0
  · have hz2 : (h : Int) = 0 ∧ (mi : Int) = 0 ∧ (s : Int) = 0 := by omega
    simp only [durationShape, hz2, and_self, if_true, timeL, hz, String.toList,
      String.data_append, eY, eM, eW, eD, tY, tM, tW, tD]
    simp
  · have hz2 : ¬ ((h : Int) = 0 ∧ (mi : Int) = 0 ∧ (s : Int) = 0) := by omega
    simp only [durationShape, hz2, if_false, timeL, hz, String.toList,
      String.data_append, eY, eM, eW, eD, eH, eS, tY, tM, tW, tD, tH, tMi, tS]
    simp

/-- Reading the string that `parseTimeDifference` returns for a non-negative
argument gives the components it computed. -/
theorem readDuration_parse (n : Int) (hn : 0 ≤ n) :
    readDuration (parseTimeDifference n).toList =
      [(timeComponents n).years.toNat, (timeComponents n).months.toNat,
       (timeComponents n).weeks.toNat, (timeComponents n).days.toNat,
       (timeComponents n).hours.toNat, (timeComponents n).minutes.toNat,
       (timeComponents n).seconds.toNat] := by
  obtain ⟨_, h1, h2, h3, h4, h5, h6, h7⟩ := timeComponents_sum_bounds n hn
  rw [parseTimeDifference_components]
  obtain ⟨y, hy⟩ := Int.eq_ofNat_of_zero_le h1
  obtain ⟨mo, hmo⟩ := Int.eq_ofNat_of_zero_le h2.1
  obtain ⟨w, hw⟩ := Int.eq_ofNat_of_zero_le h3.1
  obtain ⟨d, hd⟩ := Int.eq_ofNat_of_zero_le h4.1
  obtain ⟨h, hh⟩ := Int.eq_ofNat_of_zero_le h5.1
  obtain ⟨mi, hmi⟩ := Int.eq_ofNat_of_zero_le h6.1
  obtain ⟨s, hs⟩ := Int.eq_ofNat_of_zero_le h7.1
  rw [hy, hmo, hw, hd, hh, hmi, hs, durationShape_toList, readDuration_shape]
  simp

/-- C17 (the duration string identifies the duration): `parseTimeDifference` is
injective on the non-negative integers. -/
theorem duration_injective (a b : Int) (ha : 0 ≤ a) (hb : 0 ≤ b)
    (h : parseTimeDifference a = parseTimeDifference b) : a = b := by
  have ea := readDuration_parse a ha
  have eb := readDuration_parse b hb
  rw [h, eb] at ea
  obtain ⟨sa, a1, a2, a3, a4, a5, a6, a7⟩ := timeComponents_sum_bounds a ha
  obtain ⟨sb, b1, b2, b3, b4, b5, b6, b7⟩ := timeComponents_sum_bounds b hb
  simp only [List.cons.injEq, and_true] at ea
  obtain ⟨c1, c2, c3, c4, c5, c6, c7⟩ := ea
  omega

/-! ## The theorems at concrete requests -/

set_option maxRecDepth 100000

theorem idempotent_submission_witness :
    ∃ id : String,
      (igcHandler demoLib (Globals.init demoLib 0) (demoSubmit "a" [])).2 =
        idResponse demoLib id ∧
      (igcHandler demoLib (igcHandler demoLib (Globals.init demoLib 0) (demoSubmit "a" [])).1
        (demoSubmit "a" [demoEntry "a"])).2 = idResponse demoLib id :=
  (idempotent_submission (Globals.init demoLib 0) (demoSubmit "a" [])
    (demoSubmit "a" [demoEntry "a"]) [("url", "a")] [("url", "a")] demoTrack demoTrack "a"
    rfl rfl rfl rfl (List.Perm.refl _) rfl rfl rfl rfl (List.Perm.refl _)).imp
    (fun _ h => ⟨h.1, h.2.1⟩)

theorem resubmission_keeps_registry_witness :
    (igcHandler demoLib demoGlobals (demoSubmit "a" [demoEntry "a"])).1 = demoGlobals :=
  (resubmission_keeps_registry demoGlobals (demoSubmit "a" [demoEntry "a"]) [("url", "a")]
    rfl rfl (List.Perm.refl _) (List.mem_singleton.2 rfl)).1

/-- C2 as stated fails: the location `a` is a key, the parser rejects it, and the
submission ends in a panic instead of the answer with the stored id `igc1`. -/
theorem known_url_parser_failure_panics :
    urlInMap demoGlobals.igcFiles "a" = true ∧
    (mapGet (URLTrack.zero demoLib) demoGlobals.igcFiles "a").trackName = "igc1" ∧
    (igcHandler demoLib demoGlobals (demoReject "a" [demoEntry "a"])).2 = Outcome.panicked ∧
    (igcHandler demoLib demoGlobals (demoReject "a" [demoEntry "a"])).2 ≠
      idResponse demoLib "igc1" := by
  decide

theorem nth_distinct_url_id_witness :
    (igcHandler demoLib demoGlobals (demoSubmit "b" [demoEntry "a"])).2 =
      idResponse demoLib ("igc" ++ Itoa (((1 : Nat) : Int) + 1)) :=
  nth_distinct_url_id
    (SubmitRun.submit (demoSubmit "b" [demoEntry "a"]) [("url", "b")] demoTrack
      (SubmitRun.submit (demoSubmit "a" [demoEntry "a"]) [("url", "a")] demoTrack
        (SubmitRun.submit (demoSubmit "a" []) [("url", "a")] demoTrack
          (SubmitRun.start : SubmitRun demoLib 0 [] (Globals.init demoLib 0))
          rfl rfl rfl (List.Perm.refl _))
        rfl rfl rfl (List.Perm.refl _))
      rfl rfl rfl (List.Perm.refl _))
    1 "b" rfl _ (List.mem_append_right _ (List.mem_singleton.2 rfl))

theorem trackName_injective_witness :
    Reachable demoLib demoGlobals ∧ demoEntry "a" ∈ demoGlobals.igcFiles ∧
      (demoEntry "a").1 = (demoEntry "a").1 :=
  have hr : Reachable demoLib demoGlobals :=
    ⟨0, ReachableFrom.serve (demoSubmit "a" []) ReachableFrom.refl (List.Perm.refl _)
      (by decide)⟩
  ⟨hr, List.mem_singleton.2 rfl,
    trackName_injective hr _ _ _ _ (List.mem_singleton.2 rfl) (List.mem_singleton.2 rfl) rfl⟩

theorem parser_failure_keeps_registry_witness :
    igcHandler demoLib demoGlobals (demoReject "b" [demoEntry "a"]) =
      (demoGlobals, Outcome.panicked) :=
  parser_failure_keeps_registry demoGlobals (demoReject "b" [demoEntry "a"]) [("url", "b")]
    rfl rfl rfl

theorem lookup_after_submission_witness :
    ∃ length : String,
      idHandler demoLib demoGlobals (demoGet "/igcinfo/api/igc/igc1" [demoEntry "a"]) =
        (demoGlobals, Outcome.response 200 (some "application/json")
          (demoLib.Fprintf (detailText demoTrack length))) := by
  obtain ⟨_, _, _, length, _, h⟩ := lookup_after_submission
    (⟨0, ReachableFrom.refl⟩ : Reachable demoLib (Globals.init demoLib 0))
    (demoSubmit "a" []) (demoGet "/igcinfo/api/igc/igc1" [demoEntry "a"]) [("url", "a")]
    demoTrack rfl rfl rfl (List.Perm.refl _) (by decide)
    (ReachableFrom.serve (demoSubmit "a" [demoEntry "a"]) ReachableFrom.refl
      (List.Perm.refl _) (by decide))
    (List.Perm.refl _)
  exact ⟨length, h rfl⟩

/-- C6 as stated fails for the empty URL: a body without the field `url` whose
empty location the parser accepts is registered as `igc1` under the key `""`, and
`getTrackIndex` then returns `""`, which `idHandler` takes for a miss: the detail
request for `igc1` is answered 404. -/
theorem empty_url_lookup_misses :
    (urlRouter demoLib (Globals.init demoLib 0) (demoSubmitNoUrl [])).2 =
      idResponse demoLib "igc1" ∧
    (urlRouter demoLib (Globals.init demoLib 0) (demoSubmitNoUrl [])).1.igcFiles =
      [demoEntry ""] ∧
    getTrackIndex [demoEntry ""] "igc1" = "" ∧
    (urlRouter demoLib (urlRouter demoLib (Globals.init demoLib 0) (demoSubmitNoUrl [])).1
      (demoGet "/igcinfo/api/igc/igc1" [demoEntry ""])).2 = Outcome.response 404 none "" :=
  ⟨rfl, rfl, rfl, rfl⟩

theorem unknown_id_not_found_witness :
    idHandler demoLib demoGlobals (demoGet "/igcinfo/api/igc/igc9" [demoEntry "a"]) =
      (demoGlobals, Outcome.response 404 none "") ∧
    fieldHandler demoLib demoGlobals (demoGet "/igcinfo/api/igc/igc9/pilot" [demoEntry "a"]) =
      (demoGlobals, Outcome.response 404 none "") :=
  have hid : ∀ e ∈ demoGlobals.igcFiles, e.2.trackName ≠ "igc9" := by
    intro e he
    rw [List.mem_singleton.1 he]
    decide
  ⟨(unknown_id_not_found demoGlobals (demoGet "/igcinfo/api/igc/igc9" [demoEntry "a"]) "igc9"
      (List.Perm.refl _) hid).1 rfl,
   (unknown_id_not_found demoGlobals (demoGet "/igcinfo/api/igc/igc9/pilot" [demoEntry "a"])
      "igc9" (List.Perm.refl _) hid).2 "pilot" rfl rfl⟩

theorem router_exclusive_witness :
    urlRouter demoLib demoGlobals (demoGet "/igcinfo/api/igc/igc1" [demoEntry "a"]) =
      idHandler demoLib demoGlobals (demoGet "/igcinfo/api/igc/igc1" [demoEntry "a"]) :=
  ((router_exclusive demoGlobals (demoGet "/igcinfo/api/igc/igc1" [demoEntry "a"])
    (by decide)).2.2.1 patId (idHandler demoLib) (by simp [urlMap]) (by decide)).2

theorem duration_shape_witness :
    parseTimeDifference 3661 = durationShape 0 0 0 0 1 1 1 :=
  duration_shape 3661 (by decide)

theorem duration_decomposition_witness :
    (timeComponents 34283661).years * 31557600 + (timeComponents 34283661).months * 2629800 +
      (timeComponents 34283661).weeks * 604800 + (timeComponents 34283661).days * 86400 +
      (timeComponents 34283661).hours * 3600 + (timeComponents 34283661).minutes * 60 +
      (timeComponents 34283661).seconds = 34283661 :=
  (duration_decomposition 34283661 (by decide)).2.1

theorem entries_stable_witness :
    demoEntry "a" ∈ (urlRouter demoLib demoGlobals (demoSubmit "b" [demoEntry "a"])).1.igcFiles :=
  (entries_stable demoGlobals (demoSubmit "b" [demoEntry "a"]) (List.Perm.refl _)
    (by decide)).1 (demoEntry "a") (List.mem_singleton.2 rfl)

theorem listing_complete_witness :
    igcHandler demoLib demoGlobals (demoGet "/igcinfo/api/igc" [demoEntry "a"]) =
      (demoGlobals, Outcome.response 200 (some "application/json") "[\"igc1\"]") :=
  (listing_complete demoGlobals (demoGet "/igcinfo/api/igc" [demoEntry "a"]) rfl
    (List.nodup_singleton _) (List.Perm.refl _)).1

theorem issued_ids_routable_witness :
    (urlRouter demoLib (Globals.init demoLib 0) (demoSubmit "a" [])).2 =
      idResponse demoLib "igc1" ∧
    urlRouter demoLib demoGlobals (demoGet "/igcinfo/api/igc/igc1" [demoEntry "a"]) =
      (demoGlobals, Outcome.response 200 (some "application/json")
        "\x7b\"H_date\": \"2016-02-19 00:00:00 +0000 UTC\",\"pilot\": \"Miguel Angel Gordillo\",\"glider\": \"RV8\",\"glider_id\": \"EC-XLL\",\"track_length\": \"7.00\"\x7d") :=
  (issued_ids_routable 1 (by decide) (by decide)).2.2.2.2.2.2.2 demoLib
    (Globals.init demoLib 0) (demoSubmit "a" [])
    (demoGet "/igcinfo/api/igc/igc1" [demoEntry "a"]) [("url", "a")] demoTrack
    ⟨0, ReachableFrom.refl⟩ rfl (List.Perm.refl _) (by decide) rfl rfl rfl rfl
    (by decide) (by decide) (List.Perm.refl _) (by decide) rfl

theorem field_path_segments_witness :
    ∃ id field : String,
      "/igcinfo/api/igc/igc1/pilot" = "/igcinfo/api/igc/" ++ id ++ "/" ++ field ∧
      Split "/igcinfo/api/igc/igc1/pilot" = ["", "igcinfo", "api", "igc", id, field] :=
  (field_path_segments "/igcinfo/api/igc/igc1/pilot" (by decide)).imp
    (fun _ h => h.imp (fun _ h2 => ⟨h2.1, h2.2.1⟩))

theorem pilot_field_consistent_witness :
    idHandler demoLib demoGlobals (demoGet "/igcinfo/api/igc/igc1" [demoEntry "a"]) =
      (demoGlobals, Outcome.response 200 (some "application/json")
        "\x7b\"H_date\": \"2016-02-19 00:00:00 +0000 UTC\",\"pilot\": \"Miguel Angel Gordillo\",\"glider\": \"RV8\",\"glider_id\": \"EC-XLL\",\"track_length\": \"7.00\"\x7d") ∧
    fieldHandler demoLib demoGlobals (demoGet "/igcinfo/api/igc/igc1/pilot" [demoEntry "a"]) =
      (demoGlobals, Outcome.response 200 none "Miguel Angel Gordillo") :=
  have h := pilot_field_consistent demoGlobals (List.nodup_singleton _)
    "a" (demoEntry "a").2 (List.mem_singleton.2 rfl)
    (fun a ha _ => List.mem_singleton.1 ha) (by decide)
    (demoGet "/igcinfo/api/igc/igc1" [demoEntry "a"])
    (demoGet "/igcinfo/api/igc/igc1/pilot" [demoEntry "a"])
    (List.Perm.refl _) (List.Perm.refl _) rfl rfl rfl (by decide) (by decide)
    (by decide) (by decide)
  ⟨h.1, h.2.1⟩

/-- C12 as stated fails in five ways, each at a track registered as `igc1`.
A pilot `a"b`: the field handler writes `a"b`, between the quotes after `"pilot":`
in the detail body stands `a`.  A pilot `100%`: the field handler writes
`100%!(NOVERB)`, the detail body has `100%!`.  A date rendered with the zone
abbreviation `"pilot": "zz`: the detail body has `zz` first.  The empty URL: both
handlers answer 404 with no body.  Two entries with the same id: the two handlers,
iterating in different orders, pick different tracks. -/
theorem pilot_projection_differs :
    ((urlRouter demoLib (urlRouter demoLib (Globals.init demoLib 0) (quoteSubmit "a" [])).1
        (demoGet "/igcinfo/api/igc/igc1/pilot" [quoteEntry "a"])).2 =
          Outcome.response 200 none "a\"b" ∧
      (urlRouter demoLib (urlRouter demoLib (Globals.init demoLib 0) (quoteSubmit "a" [])).1
        (demoGet "/igcinfo/api/igc/igc1" [quoteEntry "a"])).2 =
          Outcome.response 200 (some "application/json")
            "\x7b\"H_date\": \"2016-02-19 00:00:00 +0000 UTC\",\"pilot\": \"a\"b\",\"glider\": \"RV8\",\"glider_id\": \"EC-XLL\",\"track_length\": \"7.00\"\x7d" ∧
      pilotValue
        "\x7b\"H_date\": \"2016-02-19 00:00:00 +0000 UTC\",\"pilot\": \"a\"b\",\"glider\": \"RV8\",\"glider_id\": \"EC-XLL\",\"track_length\": \"7.00\"\x7d" =
          some "a") ∧
    ((urlRouter demoLib
        (urlRouter demoLib (Globals.init demoLib 0) (trackSubmit percentTrack "a" [])).1
        (demoGet "/igcinfo/api/igc/igc1/pilot" [trackEntry percentTrack "a"])).2 =
          Outcome.response 200 none "100%!(NOVERB)" ∧
      pilotValue (urlRouter demoLib
        (urlRouter demoLib (Globals.init demoLib 0) (trackSubmit percentTrack "a" [])).1
        (demoGet "/igcinfo/api/igc/igc1" [trackEntry percentTrack "a"])).2.body =
          some "100%!") ∧
    ((urlRouter demoLib
        (urlRouter demoLib (Globals.init demoLib 0) (trackSubmit zoneTrack "a" [])).1
        (demoGet "/igcinfo/api/igc/igc1/pilot" [trackEntry zoneTrack "a"])).2 =
          Outcome.response 200 none "Miguel Angel Gordillo" ∧
      pilotValue (urlRouter demoLib
        (urlRouter demoLib (Globals.init demoLib 0) (trackSubmit zoneTrack "a" [])).1
        (demoGet "/igcinfo/api/igc/igc1" [trackEntry zoneTrack "a"])).2.body =
          some "zz") ∧
    ((urlRouter demoLib (urlRouter demoLib (Globals.init demoLib 0) (demoSubmitNoUrl [])).1
        (demoGet "/igcinfo/api/igc/igc1/pilot" [demoEntry ""])).2 =
          Outcome.response 404 none "" ∧
      (urlRouter demoLib (urlRouter demoLib (Globals.init demoLib 0) (demoSubmitNoUrl [])).1
        (demoGet "/igcinfo/api/igc/igc1" [demoEntry ""])).2 =
          Outcome.response 404 none "" ∧
      pilotConsistent (Outcome.response 404 none "") (Outcome.response 404 none "") = false) ∧
    ((urlRouter demoLib dupGlobals
        (demoGet "/igcinfo/api/igc/igc1/pilot"
          [trackEntry bobTrack "b", trackEntry demoTrack "a"])).2 =
          Outcome.response 200 none "Bob" ∧
      pilotValue (urlRouter demoLib dupGlobals
        (demoGet "/igcinfo/api/igc/igc1"
          [trackEntry demoTrack "a", trackEntry bobTrack "b"])).2.body =
          some "Miguel Angel Gordillo") := by
  refine ⟨⟨?_, ?_, ?_⟩, ⟨?_, ?_⟩, ⟨?_, ?_⟩, ⟨?_, ?_, ?_⟩, ⟨?_, ?_⟩⟩ <;> decide

theorem duration_injective_witness : (3600 + 61 : Int) = 3661 :=
  duration_injective (3600 + 61) 3661 (by decide) (by decide) rfl

end Igcinfo
